import Mathlib

/-!
Verification of the WCS remote-service plugin (harvesters/wcs.py,
serviceprocessors/wcs.py, utils.py).

Shallow embedding conventions:
by a raising access is `.error`; a value that Python code may find to be
`None` (or an absent dictionary key) is an `Option`.  Machine floats never
undergo arithmetic in this code — they are only parsed from decimal strings
and tupled — so coordinates are modelled exactly as `ℚ`.  The remote WCS
endpoint is an input: every function that contacts it takes the outcome of
that contact (`Except PyErr …`) as an argument.
-/

set_option maxRecDepth 4096

deriving instance DecidableEq for Except

/-- Kinds of Python exception observed by the embedded code. `exn` stands for
the bare `Exception` raised explicitly by the source; `unmodelled` marks an
error reported by the embedding on the one branch whose CPython behavior
(the NFKC-normalization check of `urllib.parse._checknetloc` on non-ASCII
network locations) is beyond a shallow embedding — the model fails there
rather than guess, and no theorem below depends on that branch. -/
inductive PyErr where
  | keyError
  | attributeError
  | valueError
  | indexError
  | exn
  | unmodelled
deriving DecidableEq, Repr

@[simp] theorem except_bind_ok (a : α) (f : α → Except ε β) :
    (Except.ok a >>= f) = f a := rfl

@[simp] theorem except_bind_err (e : ε) (f : α → Except ε β) :
    ((Except.error e : Except ε α) >>= f) = .error e := rfl

@[simp] theorem except_map_ok (f : α → β) (a : α) :
    (f <$> (Except.ok a : Except ε α)) = .ok (f a) := rfl

@[simp] theorem except_map_err (f : α → β) (e : ε) :
    (f <$> (Except.error e : Except ε α)) = .error e := rfl

@[simp] theorem except_pure_def (a : α) : (pure a : Except ε α) = .ok a := rfl

/-- Python list indexing `l[i]` for `i ≥ 0`: `IndexError` when out of range. -/
def pyGet (l : List α) (i : ℕ) : Except PyErr α :=
  match l.get? i with
  | some a => .ok a
  | none => .error .indexError

/-- Python negative list indexing `l[-k]` (for `k ≥ 1`): the `k`-th element
from the end, `IndexError` when the list is shorter than `k`. -/
def pyNegGet (l : List α) (k : ℕ) : Except PyErr α :=
  if 0 < k ∧ k ≤ l.length then
    match l.get? (l.length - k) with
    | some a => .ok a
    | none => .error .indexError
  else .error .indexError

/-- Lookup of a required XML attribute (`element.attrib[name]`): `KeyError`
when the attribute is absent. -/
def pyAttrib (o : Option α) : Except PyErr α :=
  match o with
  | some a => .ok a
  | none => .error .keyError

/-- Reading `element.text` after `find(...)`: `AttributeError` when the child
element is absent (`None.text`) or its text is `None` (`None.split`). -/
def pyText (o : Option String) : Except PyErr String :=
  match o with
  | some s => .ok s
  | none => .error .attributeError

/-- Numeric value of a run of decimal digit characters. -/
def digitsToNat (l : List Char) : ℕ :=
  l.foldl (fun a c => 10 * a + (c.toNat - 48)) 0

/-- A natural number as a rational, built directly so that concrete values
reduce in the kernel. -/
def natToRat (n : ℕ) : ℚ :=
  ⟨Int.ofNat n, 1, one_ne_zero, Nat.coprime_one_right _⟩

/-- Split a character list at every character satisfying `p`, keeping empty
pieces; the result is always nonempty. -/
def splitPred (p : Char → Bool) : List Char → List (List Char)
  | [] => [[]]
  | c :: rest =>
      match splitPred p rest with
      | [] => [[]]
      | cur :: others => if p c then [] :: cur :: others else (c :: cur) :: others

/-- Models Python `int(s)` on plain decimal literals: an optional sign
followed by digits.  Other accepted Python spellings (surrounding
whitespace, underscores) do not occur in the documents modelled here and
are treated as parse failures. -/
def pyInt (s : String) : Option ℤ :=
  let p : ℤ × List Char :=
    match s.toList with
    | '-' :: rest => (-1, rest)
    | '+' :: rest => (1, rest)
    | cs => (1, cs)
  if p.2 ≠ [] ∧ p.2.all Char.isDigit then some (p.1 * digitsToNat p.2) else none

/-- Models Python `float(s)` on plain decimal literals: an optional sign,
digits, and an optional fractional part.  Exponent notation, `inf`/`nan` and
surrounding whitespace do not occur in the documents modelled here and are
treated as parse failures. -/
def pyFloat (s : String) : Option ℚ :=
  let p : Bool × List Char :=
    match s.toList with
    | '-' :: rest => (true, rest)
    | '+' :: rest => (false, rest)
    | cs => (false, cs)
  let ip := p.2.takeWhile Char.isDigit
  let rest := p.2.dropWhile Char.isDigit
  let mag : Option ℚ :=
    match rest with
    | [] => if ip = [] then none else some (natToRat (digitsToNat ip))
    | '.' :: fp =>
        if fp.all Char.isDigit ∧ ¬(ip = [] ∧ fp = []) then
          some (natToRat (digitsToNat ip) +
            natToRat (digitsToNat fp) / natToRat (10 ^ fp.length))
        else none
    | _ => none
  match mag with
  | none => none
  | some m => some (if p.1 then -m else m)

/-- `float(s)` as an `Except`: `ValueError` on failure. -/
def pyFloatE (s : String) : Except PyErr ℚ :=
  match pyFloat s with
  | some q => .ok q
  | none => .error .valueError

/-- `int(s)` as an `Except`: `ValueError` on failure. -/
def pyIntE (s : String) : Except PyErr ℤ :=
  match pyInt s with
  | some n => .ok n
  | none => .error .valueError

/-- Python `s.lower().split()`: lowercase (ASCII), then split on whitespace
runs, dropping empty pieces. -/
def pyLowerSplit (s : String) : List String :=
  ((splitPred Char.isWhitespace (s.toList.map Char.toLower)).filter (· ≠ [])).map
    String.mk

/-- Python `s.split()`: split on whitespace runs, dropping empty pieces. -/
def pyWsSplit (s : String) : List String :=
  ((splitPred Char.isWhitespace s.toList).filter (· ≠ [])).map String.mk

/-- Python `s.replace(c, "")` for the double-quote character, as used on the
temporal corner values: removes every double quote. -/
def removeQuotes (s : String) : String :=
  String.mk (s.toList.filter (· ≠ '"'))

/-- Longitude-like axis labels of `_getOtherBoundingBoxes`. -/
def x_labels : List String := ["longitude", "lon", "long", "e", "w", "x"]

/-- Latitude-like axis labels of `_getOtherBoundingBoxes`. -/
def y_labels : List String := ["latitude", "lat", "n", "s", "y"]

/-- One `gml:Envelope` element of a describe-coverage response, as accessed
by `_getOtherBoundingBoxes`: each field is the raw attribute or child text,
`none` when absent. -/
structure Envelope where
  srsName : Option String
  srsDimension : Option String
  axisLabels : Option String
  lowerCorner : Option String
  upperCorner : Option String
deriving DecidableEq, Repr

/-- One bounding-box dictionary as built by `_getOtherBoundingBoxes` (and,
for the `boundingboxes` attribute of a coverage, as exposed by the client
library): native SRS URI, 4-tuple rectangle, and the `temporal_extent` key,
which is present (`some`) only for 3-dimensional envelopes. -/
structure NativeBoundingBox where
  nativeSrs : String
  bbox : ℚ × ℚ × ℚ × ℚ
  temporal_extent : Option (String × String)
deriving DecidableEq, Repr

/-- Body of the `for envelope in describe_coverage.findall(...)` loop of
`_getOtherBoundingBoxes` (wcs.py lines 300-322), one envelope at a time. -/
def parseEnvelope (e : Envelope) : Except PyErr NativeBoundingBox := do
  let srs ← pyAttrib e.srsName
  let dims ← pyIntE (← pyAttrib e.srsDimension)
  let labels := pyLowerSplit (← pyAttrib e.axisLabels)
  let lc := pyWsSplit (← pyText e.lowerCorner)
  let uc := pyWsSplit (← pyText e.upperCorner)
  if dims = 2 then
    let a0 ← pyGet labels 0
    let swap ← if a0 ∈ y_labels then do
        let a1 ← pyGet labels 1
        pure (decide (a1 ∈ x_labels))
      else pure false
    if swap then
      let b0 ← pyFloatE (← pyGet lc 1)
      let b1 ← pyFloatE (← pyGet lc 0)
      let b2 ← pyFloatE (← pyGet uc 1)
      let b3 ← pyFloatE (← pyGet uc 0)
      pure ⟨srs, (b0, b1, b2, b3), none⟩
    else
      let b0 ← pyFloatE (← pyGet lc 0)
      let b1 ← pyFloatE (← pyGet lc 1)
      let b2 ← pyFloatE (← pyGet uc 0)
      let b3 ← pyFloatE (← pyGet uc 1)
      pure ⟨srs, (b0, b1, b2, b3), none⟩
  else if dims = 3 then
    let a1 ← pyGet labels 1
    let swap ← if a1 ∈ y_labels then do
        let a2 ← pyGet labels 2
        pure (decide (a2 ∈ x_labels))
      else pure false
    let bb ← if swap then do
        let b0 ← pyFloatE (← pyGet lc 2)
        let b1 ← pyFloatE (← pyGet lc 1)
        let b2 ← pyFloatE (← pyGet uc 2)
        let b3 ← pyFloatE (← pyGet uc 1)
        pure (b0, b1, b2, b3)
      else do
        let b0 ← pyFloatE (← pyGet lc 1)
        let b1 ← pyFloatE (← pyGet lc 2)
        let b2 ← pyFloatE (← pyGet uc 1)
        let b3 ← pyFloatE (← pyGet uc 2)
        pure (b0, b1, b2, b3)
    let t0 ← pyGet lc 0
    let t1 ← pyGet uc 0
    pure ⟨srs, bb, some (removeQuotes t0, removeQuotes t1)⟩
  else
    let b0 ← pyFloatE (← pyGet lc 0)
    let b1 ← pyFloatE (← pyGet lc 1)
    let b2 ← pyFloatE (← pyGet uc 0)
    let b3 ← pyFloatE (← pyGet uc 1)
    pure ⟨srs, (b0, b1, b2, b3), none⟩

/-- `WCSHarvester._getOtherBoundingBoxes`: the describe-coverage fetch is the
input; a failed fetch is caught and yields the empty list, while a parse
error inside the loop propagates. -/
def getOtherBoundingBoxes (describe : Except PyErr (List Envelope)) :
    Except PyErr (List NativeBoundingBox) :=
  match describe with
  | .error _ => .ok []
  | .ok envs => envs.mapM parseEnvelope

/-- An axis-aligned rectangle `(left_x, lower_y, right_x, upper_y)`. -/
abbrev Rect : Type := ℚ × ℚ × ℚ × ℚ

/-- Modelled from the spec: the external geometry builder
(`django.contrib.gis.geos.Polygon.from_bbox`, not part of this repository)
turns the rectangle into its closed four-cornered planar polygon
`(min_x, min_y), (max_x, min_y), (max_x, max_y), (min_x, max_y)` closed back
to the start. -/
def polygon_from_bbox (r : Rect) : List (ℚ × ℚ) :=
  match r with
  | (x0, y0, x1, y1) => [(x0, y0), (x1, y0), (x1, y1), (x0, y1), (x0, y0)]

/-- One coverage metadata object (`owslib ContentMetadata`) as accessed by
the harvester.  The bounding-box attributes are accessed live and may raise,
hence `Except`; `describeCoverage` is the outcome of the
`getDescribeCoverage` network fetch for this coverage. -/
structure WcsContent where
  id : Option String
  title : Option String
  abstract : Option String
  keywords : List String
  boundingBox : Except PyErr (Option Rect)
  boundingBoxWGS84 : Except PyErr (Option Rect)
  boundingboxes : Except PyErr (List NativeBoundingBox)
  describeCoverage : Except PyErr (List Envelope)

/-- The dictionary returned by `_get_bbox`: the `crs` key may be absent
(`none`, as in the primary bounding-box branch), `temporal_extent` is always
a key whose value may be `None`, and `spatial_extent` is the polygon. -/
structure BBoxResult where
  crs : Option String
  temporal_extent : Option (String × String)
  spatial_extent : List (ℚ × ℚ)
deriving DecidableEq, Repr

/-- Python `srid_url.split('/')` of a native-SRS URI. -/
def srsParts (srid_url : String) : List String :=
  (splitPred (· == '/') srid_url.toList).map String.mk

/-- CRS identifier derivation of `_get_bbox` lines 399-400 and 408-409: the
3rd-from-last and last segments of `srid_url.split('/')` joined by a colon;
Python raises `IndexError` when fewer than 3 segments exist. -/
def crs_from_srid_url (srid_url : String) : Except PyErr String := do
  let a ← pyNegGet (srsParts srid_url) 3
  let b ← pyNegGet (srsParts srid_url) 1
  pure (a ++ ":" ++ b)

/-- `WCSHarvester._get_bbox` (wcs.py lines 345-426).  The two probing
`try/except` blocks are evaluated first, then the source-priority chain; the
unguarded accesses (`boundingBox`, `boundingBoxWGS84`, the `crs` split and
the `temporal_extent` dictionary lookup) propagate their errors. -/
def get_bbox (c : WcsContent) : Except PyErr BBoxResult :=
  let has_boundingboxes : Bool :=
    match c.boundingboxes with
    | .ok l => decide (0 < l.length)
    | .error _ => false
  let other_boundingboxes : Option (List NativeBoundingBox) :=
    match getOtherBoundingBoxes c.describeCoverage with
    | .ok [] => none
    | .ok l => some l
    | .error _ => none
  do
  match ← c.boundingBox with
  | some r =>
      pure { crs := none, temporal_extent := none, spatial_extent := polygon_from_bbox r }
  | none =>
  match ← c.boundingBoxWGS84 with
  | some r =>
      pure { crs := some "EPSG:4326", temporal_extent := none,
             spatial_extent := polygon_from_bbox r }
  | none =>
  if has_boundingboxes then
    match c.boundingboxes with
    | .error e => .error e
    | .ok [] => .error .indexError
    | .ok (b :: _) => do
        let crs ← crs_from_srid_url b.nativeSrs
        pure { crs := some crs, temporal_extent := none,
               spatial_extent := polygon_from_bbox b.bbox }
  else
    match other_boundingboxes with
    | some (b :: _) => do
        let crs ← crs_from_srid_url b.nativeSrs
        let t ← match b.temporal_extent with
          | some t => pure (some t)
          | none => (.error .keyError : Except PyErr (Option (String × String)))
        pure { crs := some crs, temporal_extent := t,
               spatial_extent := polygon_from_bbox b.bbox }
    | _ =>
        pure { crs := some "EPSG:4326", temporal_extent := none,
               spatial_extent := polygon_from_bbox (-180, -90, 180, 90) }

/-- The flat record built by `_get_wcs_content_metadata`. -/
structure CoverageMetadata where
  name : String
  title : Option String
  keywords : List String
  abstract : Option String
  wcs_url : String
  spatial_extent : List (ℚ × ℚ)
  crs : String
  temporal_extent : Option (String × String)
deriving DecidableEq, Repr

/-- `WCSHarvester._get_wcs_content_metadata` (wcs.py lines 235-274).
`lookup` is the outcome of fetching `wcs.contents[coverage_id]`; a failed
fetch is caught and re-raised as a bare `Exception`, as is a coverage
without an id.  `bbox['crs']` is read unconditionally, so an absent `crs`
key raises `KeyError`. -/
def get_wcs_content_metadata (wcs_url : String) (lookup : Except PyErr WcsContent) :
    Except PyErr CoverageMetadata := do
  let c ← match lookup with
    | .ok c => (.ok c : Except PyErr WcsContent)
    | .error _ => .error .exn
  let name ← match c.id with
    | some n => (.ok n : Except PyErr String)
    | none => .error .exn
  let bbox ← get_bbox c
  let temporal := bbox.temporal_extent
  let crs ← match bbox.crs with
    | some s => (.ok s : Except PyErr String)
    | none => .error .keyError
  pure { name := name, title := c.title, keywords := c.keywords,
         abstract := c.abstract, wcs_url := wcs_url,
         spatial_extent := bbox.spatial_extent, crs := crs,
         temporal_extent := temporal }

/-- `WCSHarvester._get_category`: the platform vocabulary filtered on the
exact (case-sensitive) identifier; an empty query set is falsy and yields no
category.  The vocabulary is modelled as the list of category identifiers. -/
def get_category (vocab : List String) (category_string : String) : Option String :=
  match vocab.filter (· = category_string) with
  | [] => none
  | c :: _ => some c

/-- The category-resolution loop of `_get_metadata` (wcs.py lines 336-341):
start from `None`, take the first keyword whose `_get_category` is truthy. -/
def category_of_keywords (vocab : List String) : List String → Option String
  | [] => none
  | k :: rest =>
      match get_category vocab k with
      | some c => some c
      | none => category_of_keywords vocab rest

/-- The record built by `_get_metadata`: the flat metadata with title and
abstract defaulted and the topic category resolved. -/
structure ResolvedMetadata where
  name : String
  title : String
  keywords : List String
  abstract : String
  wcs_url : String
  spatial_extent : List (ℚ × ℚ)
  crs : String
  temporal_extent : Option (String × String)
  category : Option String
deriving DecidableEq, Repr

/-- `WCSHarvester._get_metadata` (wcs.py lines 326-343). -/
def get_metadata (vocab : List String) (wcs_url : String)
    (lookup : Except PyErr WcsContent) : Except PyErr ResolvedMetadata := do
  let m ← get_wcs_content_metadata wcs_url lookup
  let title := match m.title with
    | none => m.name
    | some t => t
  let abstract := match m.abstract with
    | none => "Not provided"
    | some a => a
  pure { name := m.name, title := title, keywords := m.keywords,
         abstract := abstract, wcs_url := m.wcs_url,
         spatial_extent := m.spatial_extent, crs := m.crs,
         temporal_extent := m.temporal_extent,
         category := category_of_keywords vocab m.keywords }

/-- One coverage entry of the capabilities contents, as read by
`list_resources` and `check_availability`. -/
structure CoverageSummary where
  title : Option String
  abstract : Option String
deriving DecidableEq, Repr

/-- A brief remote-resource descriptor (`base.BriefRemoteResource`). -/
structure BriefRemoteResource where
  unique_identifier : String
  title : String
  abstract : String
  resource_type : String
deriving DecidableEq, Repr

/-- `WCSHarvester.list_resources` (wcs.py lines 90-125).  `contents` is the
outcome of fetching the capabilities contents mapping (coverage id to
coverage, in endpoint-reported order).  A nonzero (or `None`) offset returns
the empty list before any contact with the endpoint. -/
def list_resources (contents : Except PyErr (List (String × CoverageSummary)))
    (offset : Option ℤ := some 0) : Except PyErr (List BriefRemoteResource) :=
  if offset ≠ some 0 then .ok []
  else do
    let cs ← contents
    pure (cs.map fun p =>
      { unique_identifier := p.1
      , title := match p.2.title with
          | none => p.1
          | some t => t
      , abstract := match p.2.abstract with
          | none => "Not provided"
          | some a => a
      , resource_type := "layers" })

/-- `WCSHarvester.check_availability` (wcs.py lines 127-131): every
exception of the endpoint contact is caught and turned into `false`; the
`timeout_seconds` parameter (default 5) is accepted but never read. -/
def check_availability (contents : Except PyErr (List (String × CoverageSummary)))
    (timeout_seconds : Option ℤ := some 5) : Bool :=
  match contents with
  | .ok cs => if 0 < cs.length then true else false
  | .error _ => false

/-- `WCSServiceHandler.probe` (serviceprocessors/wcs.py lines 50-54): same
tolerant boolean contract as `check_availability`. -/
def probe (contents : Except PyErr (List (String × CoverageSummary))) : Bool :=
  match contents with
  | .ok cs => if 0 < cs.length then true else false
  | .error _ => false

/-- Value of a hexadecimal digit character. -/
def hexVal (c : Char) : Option ℕ :=
  if '0' ≤ c ∧ c ≤ '9' then some (c.toNat - 48)
  else if 'a' ≤ c ∧ c ≤ 'f' then some (c.toNat - 87)
  else if 'A' ≤ c ∧ c ≤ 'F' then some (c.toNat - 55)
  else none

/-- Models `urllib.parse.unquote` for single-byte escape sequences: each
`%hh` with two hex digits becomes the character with that code, anything
else is kept; `+` is not touched.  Multi-byte UTF-8 escape decoding is not
modelled — every string this development evaluates on is ASCII, where the
two agree. -/
def pyUnquote : List Char → List Char
  | '%' :: a :: b :: rest =>
      match hexVal a, hexVal b with
      | some x, some y => Char.ofNat (16 * x + y) :: pyUnquote rest
      | _, _ => '%' :: pyUnquote (a :: b :: rest)
  | c :: rest => c :: pyUnquote rest
  | [] => []

/-- The `.replace('+', ' ')` step of `parse_qsl`. -/
def plusToSpace (l : List Char) : List Char :=
  l.map fun c => if c = '+' then ' ' else c

/-- Python `s.split(sep)` for a single-character separator: always returns a
nonempty list of (possibly empty) pieces. -/
def pySplitChar (sep : Char) (l : List Char) : List (List Char) :=
  splitPred (· == sep) l

/-- Python `s.split(sep, 1)` for a single-character separator: `none` when
the separator does not occur, otherwise the pieces before and after its
first occurrence. -/
def splitFirstEq (sep : Char) : List Char → Option (List Char × List Char)
  | [] => none
  | c :: rest =>
      if c = sep then some ([], rest)
      else
        match splitFirstEq sep rest with
        | none => none
        | some (a, b) => some (c :: a, b)

/-- Models `urllib.parse.parse_qsl` with its defaults (separator `&`, blank
values dropped, fields without `=` dropped): split on `&`, split each field
at the first `=`, then decode `+` and percent-escapes in name and value. -/
def parse_qsl (qs : List Char) : List (List Char × List Char) :=
  if qs = [] then []
  else
    (pySplitChar '&' qs).filterMap fun nv =>
      if nv = [] then none
      else
        match splitFirstEq '=' nv with
        | none => none
        | some (n, v) =>
            if v = [] then none
            else some (pyUnquote (plusToSpace n), pyUnquote (plusToSpace v))

/-- Insertion into a Python dict modelled as an ordered association list:
an existing key keeps its position and takes the new value, a new key goes
to the end. -/
def dictInsert (d : List (List Char × List Char)) (k v : List Char) :
    List (List Char × List Char) :=
  if d.any (fun p => p.1 == k) then d.map fun p => if p.1 == k then (k, v) else p
  else d ++ [(k, v)]

/-- Python `dict(pairs)`: last value wins, first occurrence fixes the
position. -/
def pyDict (l : List (List Char × List Char)) : List (List Char × List Char) :=
  l.foldl (fun d p => dictInsert d p.1 p.2) []

/-- Python `key in dict`. -/
def dictHasKey (d : List (List Char × List Char)) (k : List Char) : Bool :=
  d.any fun p => p.1 == k

/-- Python `dict[key]` as an `Option`. -/
def dictLookup (d : List (List Char × List Char)) (k : List Char) :
    Option (List Char) :=
  (d.find? fun p => p.1 == k).map Prod.snd

/-- Python `dict.pop(key)`, the resulting dictionary: removal preserves the
order of the remaining entries (no-op when the key is absent). -/
def dictRemove (d : List (List Char × List Char)) (k : List Char) :
    List (List Char × List Char) :=
  d.filter fun p => ¬(p.1 == k)

/-- Uppercase hexadecimal digit of a value below 16. -/
def toHexUpper (n : ℕ) : Char :=
  if n < 10 then Char.ofNat (48 + n) else Char.ofNat (55 + n % 16)

/-- Characters never percent-encoded by `quote_plus` (ASCII alphanumerics
and `_.-~`). -/
def alwaysSafe (c : Char) : Bool :=
  c.isAlphanum ∨ c = '_' ∨ c = '.' ∨ c = '-' ∨ c = '~'

/-- Per-character encoding of `urllib.parse.quote_plus`: safe characters
kept, space becomes `+`, anything else `%HH` with uppercase hex.  Modelled
for single-byte (ASCII) characters, the only ones this development
evaluates on. -/
def quotePlusChar (c : Char) : List Char :=
  if alwaysSafe c then [c]
  else if c = ' ' then ['+']
  else ['%', toHexUpper (c.toNat / 16 % 16), toHexUpper (c.toNat % 16)]

/-- Models `urllib.parse.quote_plus` on a string. -/
def quote_plus : List Char → List Char
  | [] => []
  | c :: rest => quotePlusChar c ++ quote_plus rest

/-- Models `urllib.parse.urlencode(d, doseq=True)` on a dict of strings:
`quote_plus(k)=quote_plus(v)` joined by `&`. -/
def pyUrlencode : List (List Char × List Char) → List Char
  | [] => []
  | [(k, v)] => quote_plus k ++ '=' :: quote_plus v
  | (k, v) :: rest => quote_plus k ++ '=' :: quote_plus v ++ '&' :: pyUrlencode rest

/-- Python `s.find(c, start)` restricted to a found result. -/
def pyFindFrom (c : Char) (l : List Char) (start : ℕ) : Option ℕ :=
  ((l.drop start).findIdx? (· == c)).map (· + start)

/-- Python `s.rfind(c)` restricted to a found result. -/
def pyRfind (c : Char) (l : List Char) : Option ℕ :=
  match l.reverse.findIdx? (· == c) with
  | some i => some (l.length - 1 - i)
  | none => none

/-- Characters allowed in a URL scheme (`urllib.parse.scheme_chars`). -/
def scheme_chars : List Char :=
  "abcdefghijklmnopqrstuvwxyzABCDEFGHIJKLMNOPQRSTUVWXYZ0123456789+-.".toList

/-- Schemes splitting `;params` from the last path segment
(`urllib.parse.uses_params`). -/
def uses_params : List (List Char) :=
  (["", "ftp", "hdl", "prospero", "http", "imap", "https", "shttp", "rtsp",
    "rtsps", "rtspu", "sip", "sips", "mms", "sftp", "tel"]).map String.toList

/-- Schemes using a network location (`urllib.parse.uses_netloc`). -/
def uses_netloc : List (List Char) :=
  (["", "ftp", "http", "gopher", "nntp", "telnet", "imap", "wais", "file",
    "mms", "https", "shttp", "snews", "prospero", "rtsp", "rtsps", "rtspu",
    "rsync", "svn", "svn+ssh", "sftp", "nfs", "git", "git+ssh", "ws",
    "wss"]).map String.toList

/-- `urllib.parse._splitnetloc` after the leading `//`: the network location
runs to the first `/`, `?` or `#`. -/
def netlocSplit (rest : List Char) : List Char × List Char :=
  (rest.takeWhile fun c => ¬(c = '/' ∨ c = '?' ∨ c = '#'),
   rest.dropWhile fun c => ¬(c = '/' ∨ c = '?' ∨ c = '#'))

/-- The five components produced by `urllib.parse.urlsplit`. -/
structure SplitResult where
  scheme : List Char
  netloc : List Char
  path : List Char
  query : List Char
  fragment : List Char
deriving DecidableEq, Repr

/-- Models `urllib.parse.urlsplit` of the running CPython 3.11.6 (with
`allow_fragments=True`), error paths included: strip leading C0-control and
space characters (codes up to 0x20, the WHATWG rule), remove tab/CR/LF,
split a valid scheme at the first colon (lowercased), split the network
location after `//`, raise the `Invalid IPv6 URL` `ValueError` when the
network location contains `[` without `]` or `]` without `[` (both bracket
tests are stated unconditionally here: without `//` the netloc is empty, so
it passes them exactly as in the source), validate a bracket-balanced
network location with `_check_bracketed_host` — which accepts only a valid
IPv6 or IPvFuture address, consulting the `ipaddress` module, and is beyond
this embedding, so the model reports `unmodelled` there instead of
guessing — then split the fragment at the first `#` and the query at the
first `?`, and finally apply `_checknetloc`: an empty or all-ASCII network
location passes; on a non-ASCII one the source runs an NFKC-normalization
check that may raise `ValueError`, again reported as `unmodelled`. -/
def pyUrlsplit (url0 : List Char) : Except PyErr SplitResult :=
  let url00 := url0.dropWhile fun c => c.toNat ≤ 32
  let url1 := url00.filter fun c => ¬(c = '\t' ∨ c = '\r' ∨ c = '\n')
  let p : List Char × List Char :=
    match url1.findIdx? (· == ':') with
    | some i =>
        if 0 < i ∧ (url1.headD ' ').isAlpha ∧ (url1.take i).all (· ∈ scheme_chars)
        then ((url1.take i).map Char.toLower, url1.drop (i + 1))
        else ([], url1)
    | none => ([], url1)
  let q : List Char × List Char :=
    if p.2.take 2 = ['/', '/'] then netlocSplit (p.2.drop 2) else ([], p.2)
  if ('[' ∈ q.1 ∧ ']' ∉ q.1) ∨ (']' ∈ q.1 ∧ '[' ∉ q.1) then .error .valueError
  else if '[' ∈ q.1 ∧ ']' ∈ q.1 then .error .unmodelled
  else
    let f : List Char × List Char :=
      match splitFirstEq '#' q.2 with
      | some r => r
      | none => (q.2, [])
    let g : List Char × List Char :=
      match splitFirstEq '?' f.1 with
      | some r => r
      | none => (f.1, [])
    if q.1.all (·.toNat < 128) then .ok ⟨p.1, q.1, g.1, g.2, f.2⟩
    else .error .unmodelled

/-- The six components produced by `urllib.parse.urlparse`. -/
structure UrlParseResult where
  scheme : List Char
  netloc : List Char
  path : List Char
  params : List Char
  query : List Char
  fragment : List Char
deriving DecidableEq, Repr

/-- `urllib.parse._splitparams`: parameters after the `;` of the last path
segment. -/
def splitparams (url : List Char) : List Char × List Char :=
  if url.contains '/' then
    match pyFindFrom ';' url ((pyRfind '/' url).getD 0) with
    | some i => (url.take i, url.drop (i + 1))
    | none => (url, [])
  else
    match url.findIdx? (· == ';') with
    | some i => (url.take i, url.drop (i + 1))
    | none => (url, [])

/-- Models `urllib.parse.urlparse`, propagating `urlsplit`'s errors. -/
def pyUrlparse (url : List Char) : Except PyErr UrlParseResult := do
  let s ← pyUrlsplit url
  if s.scheme ∈ uses_params ∧ s.path.contains ';' then
    let pr := splitparams s.path
    pure ⟨s.scheme, s.netloc, pr.1, pr.2, s.query, s.fragment⟩
  else
    pure ⟨s.scheme, s.netloc, s.path, [], s.query, s.fragment⟩

/-- Models `urllib.parse.urlunsplit`. -/
def pyUrlunsplit (scheme netloc path query fragment : List Char) : List Char :=
  let u1 :=
    if netloc ≠ [] ∨ (scheme ≠ [] ∧ scheme ∈ uses_netloc ∧ path.take 2 ≠ ['/', '/'])
    then
      let u0 := if path ≠ [] ∧ path.take 1 ≠ ['/'] then '/' :: path else path
      '/' :: '/' :: (netloc ++ u0)
    else path
  let u2 := if scheme ≠ [] then scheme ++ ':' :: u1 else u1
  let u3 := if query ≠ [] then u2 ++ '?' :: query else u2
  if fragment ≠ [] then u3 ++ '#' :: fragment else u3

/-- Models `urllib.parse.urlunparse`, i.e. `ParseResult(...).geturl()`. -/
def pyUrlunparse (r : UrlParseResult) : List Char :=
  let u := if r.params ≠ [] then r.path ++ ';' :: r.params else r.path
  pyUrlunsplit r.scheme r.netloc u r.query r.fragment

/-- The quadruple returned by `get_cleaned_url_params`. -/
structure CleanedUrl where
  url : List Char
  service : Option (List Char)
  version : List Char
  request : Option (List Char)
deriving DecidableEq, Repr

/-- `get_cleaned_url_params` (utils.py lines 34-55): percent-decode the
whole URL, parse it (propagating any `ValueError` the parse raises), decode
the query into a dict, pop `version` (default `2.0.1`), `service` and
`request`, re-encode the remaining parameters and reassemble the URL. -/
def get_cleaned_url_params (url0 : List Char) : Except PyErr CleanedUrl := do
  let url := pyUnquote url0
  let parsed ← pyUrlparse url
  let args0 := pyDict (parse_qsl parsed.query)
  let version :=
    if dictHasKey args0 "version".toList then
      (dictLookup args0 "version".toList).getD "2.0.1".toList
    else "2.0.1".toList
  let args1 := dictRemove args0 "version".toList
  let service :=
    if dictHasKey args1 "service".toList then dictLookup args1 "service".toList
    else none
  let args2 := dictRemove args1 "service".toList
  let request :=
    if dictHasKey args2 "request".toList then dictLookup args2 "request".toList
    else none
  let args3 := dictRemove args2 "request".toList
  let enc := pyUrlencode args3
  let newUrl := pyUrlunparse
    ⟨parsed.scheme, parsed.netloc, parsed.path, parsed.params, enc, parsed.fragment⟩
  pure ⟨newUrl, service, version, request⟩

/-- The process-wide `settings.OGC_SERVER['default']` block, of which only
the optional `TIMEOUT` entry is read. -/
structure OgcServerSettings where
  TIMEOUT : Option ℤ

/-- The arguments with which `get_wcs_service` (utils.py lines 58-65)
constructs the client connection. -/
structure WebCoverageServiceCall where
  url : List Char
  version : List Char
  timeout : ℤ
deriving DecidableEq, Repr

/-- `get_wcs_service`: cleans the URL (propagating any error of the
cleaning) and connects with the version from the URL and the process-wide
timeout setting, defaulting to 60. -/
def get_wcs_service (ogc_server_settings : OgcServerSettings) (url : List Char) :
    Except PyErr WebCoverageServiceCall := do
  let r ← get_cleaned_url_params url
  pure { url := r.url, version := r.version,
         timeout := ogc_server_settings.TIMEOUT.getD 60 }

def spaceToPlus (l : List Char) : List Char :=
  l.map fun c => if c = ' ' then '+' else c

def encodedPlus : List (List Char × List Char) → List Char
  | [] => []
  | [(k, v)] => spaceToPlus k ++ '=' :: spaceToPlus v
  | (k, v) :: rest => spaceToPlus k ++ '=' :: spaceToPlus v ++ '&' :: encodedPlus rest

def lowerAlpha : List Char := "abcdefghijklmnopqrstuvwxyz".toList

/-- Characters allowed in the network-location component of the amended
idempotence claim: no separators, no `%`, no brackets and ASCII only (so
neither of `urlsplit`'s netloc error paths can fire), and none of the
stripped control characters. -/
@[reducible] def okNetlocChar (c : Char) : Prop :=
  c ≠ '/' ∧ c ≠ '?' ∧ c ≠ '#' ∧ c ≠ '%' ∧ c ≠ '[' ∧ c ≠ ']' ∧
    c.toNat < 128 ∧ c ≠ '\t' ∧ c ≠ '\r' ∧ c ≠ '\n'

/-- Characters allowed in the path component of the amended idempotence
claim. -/
@[reducible] def okPathChar (c : Char) : Prop :=
  c ≠ '?' ∧ c ≠ '#' ∧ c ≠ '%' ∧ c ≠ ';' ∧ c ≠ '\t' ∧ c ≠ '\r' ∧ c ≠ '\n'

/-- Characters allowed in the query component of the amended idempotence
claim: ASCII and free of `#`, `%` and the stripped control characters. -/
@[reducible] def okQueryChar (c : Char) : Prop :=
  c.toNat < 128 ∧ c ≠ '#' ∧ c ≠ '%' ∧ c ≠ '\t' ∧ c ≠ '\r' ∧ c ≠ '\n'

/-- The dictionary of query parameters that `get_cleaned_url_params` keeps:
the parsed query with `version`, `service` and `request` popped. -/
def cleanArgs (q : List Char) : List (List Char × List Char) :=
  dictRemove (dictRemove (dictRemove (pyDict (parse_qsl q))
    "version".toList) "service".toList) "request".toList

/-- A coverage whose only bounding-box information is a single 2-dimensional
describe-coverage envelope (sources 1-3 yield nothing). -/
def coverage_with_2d_envelope : WcsContent :=
  ⟨some "c", none, none, [], .ok none, .ok none, .ok [],
    .ok [⟨some "http://a/EPSG/0/4326", some "2", some "x y", some "0 1",
      some "2 3"⟩]⟩

/-- C1: the bounding-box resolver is claimed to determine the extent from
exactly the first source in the priority order that yields a value; but when
the first yielding source is the describe-coverage re-parse and its first
envelope is 2-dimensional, the parsed bounding box carries no
`temporal_extent` key and `_get_bbox` raises `KeyError` (line 410) instead
of producing that extent: the `x if x else None` guard reads the key before
testing it.  The describe-coverage source did yield a value here. -/
theorem get_bbox_envelope2d_keyerror :
    getOtherBoundingBoxes coverage_with_2d_envelope.describeCoverage =
      .ok [⟨"http://a/EPSG/0/4326", (0, 1, 2, 3), none⟩] ∧
    get_bbox coverage_with_2d_envelope = .error .keyError := by
  exact ⟨by decide, by decide⟩

/-- A coverage whose primary version-agnostic `boundingBox` attribute is set
(the situation the code comment calls impossible for the client library in
use, but which the claim quantifies over). -/
def coverage_with_primary_bbox : WcsContent :=
  ⟨some "c", some "T", some "A", [], .ok (some (1, 2, 3, 4)), .ok none,
    .ok [], .error .exn⟩

/-- C3: bounding-box resolution itself succeeds on the primary source and
leaves the CRS unspecified (no `crs` key), but the metadata record is then
not produced: `_get_wcs_content_metadata` raises `KeyError` reading
`bbox['crs']` (line 271), contradicting the claim that a record is still
produced with the unset CRS tolerated downstream. -/
theorem metadata_unset_crs_keyerror :
    get_bbox coverage_with_primary_bbox =
      .ok ⟨none, none, polygon_from_bbox (1, 2, 3, 4)⟩ ∧
    get_wcs_content_metadata "http://example.com/wcs"
      (.ok coverage_with_primary_bbox) = .error .keyError := by
  exact ⟨by decide, by decide⟩

/-- C6: `list_resources` returns the empty list for every offset other than
0 whatever the endpoint contents (even an unreachable endpoint), and for
offset 0 one brief descriptor per coverage, in endpoint-reported order: the
coverage id as unique identifier, the title defaulting to the id, the
abstract defaulting to the placeholder, and the fixed resource type
`layers`. -/
theorem list_resources_spec :
    (∀ (contents : Except PyErr (List (String × CoverageSummary)))
        (off : Option ℤ), off ≠ some 0 → list_resources contents off = .ok []) ∧
    (∀ cs : List (String × CoverageSummary),
        ∃ rs, list_resources (.ok cs) (some 0) = .ok rs ∧
          ∀ i : ℕ, rs[i]? = (cs[i]?).map fun p =>
            { unique_identifier := p.1
              title := p.2.title.getD p.1
              abstract := p.2.abstract.getD "Not provided"
              resource_type := "layers" }) := by
  constructor
  · intro contents off h
    simp [list_resources, h]
  · intro cs
    have h0 : list_resources (.ok cs) (some 0) =
        .ok (cs.map fun p =>
          { unique_identifier := p.1
            title := match p.2.title with
              | none => p.1
              | some t => t
            abstract := match p.2.abstract with
              | none => "Not provided"
              | some a => a
            resource_type := "layers" }) := by
      simp [list_resources]
    refine ⟨_, h0, fun i => ?_⟩
    rw [List.getElem?_map]
    cases cs[i]? with
    | none => rfl
    | some p =>
        cases hp1 : p.2.title <;> cases hp2 : p.2.abstract <;>
          simp [hp1, hp2, Option.getD]

/-- Witness for C6 at a concrete endpoint listing. -/
theorem list_resources_witness :
    list_resources (.ok [("c", ⟨none, some "A"⟩)]) (some 2) = .ok [] ∧
    ∃ rs, list_resources (.ok [("c", (⟨none, some "A"⟩ : CoverageSummary))])
        (some 0) = .ok rs ∧
      ∀ i : ℕ, rs[i]? =
        (([("c", (⟨none, some "A"⟩ : CoverageSummary))])[i]?).map fun p =>
          { unique_identifier := p.1
            title := p.2.title.getD p.1
            abstract := p.2.abstract.getD "Not provided"
            resource_type := "layers" } :=
  ⟨list_resources_spec.1 _ _ (by decide), list_resources_spec.2 _⟩

/-- C7: `check_availability` of the harvester and `probe` of the service
handler are `true` exactly when the endpoint contact succeeded and at least
one coverage is advertised; every exception of the contact is caught and
becomes `false`, never propagating (both functions are total into `Bool`). -/
theorem availability_iff_spec :
    ∀ (contents : Except PyErr (List (String × CoverageSummary))) (t : Option ℤ),
      (check_availability contents t = true ↔
        ∃ cs, contents = .ok cs ∧ 0 < cs.length) ∧
      (probe contents = true ↔ ∃ cs, contents = .ok cs ∧ 0 < cs.length) := by
  intro contents t
  cases contents with
  | ok cs => simp [check_availability, probe]
  | error e => simp [check_availability, probe]

/-- C10: `check_availability` is independent of its `timeout_seconds`
argument (the parameter is accepted and ignored), and `get_wcs_service`
forwards exactly the cleaned URL and its version, with the process-wide
OGC TIMEOUT setting (default 60) as the timeout of every connection it
makes — the harvester argument never reaches the connection, and an error
of the URL cleaning is passed through unchanged. -/
theorem timeout_ignored_spec :
    (∀ (contents : Except PyErr (List (String × CoverageSummary)))
        (t1 t2 : Option ℤ),
        check_availability contents t1 = check_availability contents t2) ∧
    (∀ (st : OgcServerSettings) (u : List Char),
        get_wcs_service st u =
          (get_cleaned_url_params u).map fun r =>
            ⟨r.url, r.version, st.TIMEOUT.getD 60⟩) :=
  ⟨fun _ _ _ => rfl, fun st u => by
    cases h : get_cleaned_url_params u <;> simp [get_wcs_service, h, Except.map]⟩

/-- `_get_category` returns the keyword itself exactly when it occurs in the
vocabulary. -/
theorem get_category_eq (vocab : List String) (k : String) :
    get_category vocab k = if k ∈ vocab then some k else none := by
  unfold get_category
  cases h : vocab.filter (· = k) with
  | nil =>
      have hk : k ∉ vocab := by
        intro hk
        have hmem : k ∈ vocab.filter (· = k) := List.mem_filter.2 ⟨hk, by simp⟩
        simp [h] at hmem
      simp [hk]
  | cons c rest =>
      have hc : c ∈ vocab.filter (· = k) := by simp [h]
      have hm := List.mem_filter.1 hc
      have hck : c = k := by simpa using hm.2
      have hkv : k ∈ vocab := hck ▸ hm.1
      simp [hkv, hck]

/-- The category loop picks the first keyword present in the vocabulary. -/
theorem category_of_keywords_find (vocab kws : List String) :
    category_of_keywords vocab kws = kws.find? fun k => decide (k ∈ vocab) := by
  induction kws with
  | nil => rfl
  | cons k rest ih =>
      rw [category_of_keywords, get_category_eq]
      by_cases h : k ∈ vocab
      · simp [h, List.find?_cons]
      · simp [h, List.find?_cons, ih]

/-- C8: the resolved topic category is the first keyword in list order that
exactly (case-sensitively) equals a vocabulary entry; when no keyword
matches, the category stays unset and no error is raised; `_get_metadata`
records exactly this resolution; and the concrete examples of the claim
hold (`Hydrology` matches, lowercase `hydrology` does not). -/
theorem category_resolution_spec :
    (∀ vocab kws : List String,
        category_of_keywords vocab kws = kws.find? fun k => decide (k ∈ vocab)) ∧
    (∀ vocab kws : List String,
        category_of_keywords vocab kws = none ↔ ∀ k ∈ kws, k ∉ vocab) ∧
    (∀ (vocab : List String) (wcs_url : String) (lookup : Except PyErr WcsContent)
        (m : ResolvedMetadata), get_metadata vocab wcs_url lookup = .ok m →
        m.category = category_of_keywords vocab m.keywords) ∧
    category_of_keywords ["Hydrology"] ["Hydrology", "OtherTag"] = some "Hydrology" ∧
    category_of_keywords ["Hydrology"] ["hydrology"] = none := by
  refine ⟨category_of_keywords_find, ?_, ?_, by decide, by decide⟩
  · intro vocab kws
    rw [category_of_keywords_find, List.find?_eq_none]
    simp
  · intro vocab wcs_url lookup m h
    unfold get_metadata at h
    cases hm : get_wcs_content_metadata wcs_url lookup with
    | error e => rw [hm] at h; simp [Except.bind] at h
    | ok m0 =>
        rw [hm] at h
        simp only [Except.bind, pure, Except.pure] at h
        injection h with h2
        subst h2
        rfl

/-- Witness for C8 at a concrete coverage and vocabulary. -/
theorem category_resolution_witness :
    (⟨"c", "c", ["Hydrology", "OtherTag"], "Not provided", "u",
        [(10, 20), (30, 20), (30, 40), (10, 40), (10, 20)], "EPSG:4326", none,
        some "Hydrology"⟩ : ResolvedMetadata).category =
      category_of_keywords ["Hydrology"]
        ((⟨"c", "c", ["Hydrology", "OtherTag"],
          "Not provided", "u", [(10, 20), (30, 20), (30, 40), (10, 40), (10, 20)],
          "EPSG:4326", none, some "Hydrology"⟩ : ResolvedMetadata)).keywords :=
  category_resolution_spec.2.2.1 ["Hydrology"] "u"
    (.ok ⟨some "c", none, none, ["Hydrology", "OtherTag"], .ok none,
      .ok (some (10, 20, 30, 40)), .ok [], .error .exn⟩)
    ⟨"c", "c", ["Hydrology", "OtherTag"], "Not provided", "u",
      [(10, 20), (30, 20), (30, 40), (10, 40), (10, 20)], "EPSG:4326", none,
      some "Hydrology"⟩ (by decide)

/-- Success characterization of Python negative indexing. -/
theorem pyNegGet_ok (l : List α) (k : ℕ) (a : α) :
    pyNegGet l k = .ok a ↔ 0 < k ∧ k ≤ l.length ∧ l.get? (l.length - k) = some a := by
  unfold pyNegGet
  by_cases h : 0 < k ∧ k ≤ l.length
  · simp only [h, if_true]
    cases hg : l.get? (l.length - k) with
    | none => simp [hg, h]
    | some b => simp [hg, h]
  · simp only [h, if_false]
    simp
    intro h1 h2
    exact absurd ⟨h1, h2⟩ h

/-- Success of the CRS derivation yields exactly the 3rd-from-last and last
slash-separated segments joined by a colon. -/
theorem crs_from_srid_url_ok (u s : String) (h : crs_from_srid_url u = .ok s) :
    3 ≤ (srsParts u).length ∧
    ∃ s3 s1, (srsParts u).get? ((srsParts u).length - 3) = some s3 ∧
      (srsParts u).get? ((srsParts u).length - 1) = some s1 ∧ s = s3 ++ ":" ++ s1 := by
  unfold crs_from_srid_url at h
  cases h3 : pyNegGet (srsParts u) 3 with
  | error e => simp [h3] at h
  | ok a =>
      cases h1 : pyNegGet (srsParts u) 1 with
      | error e => simp [h3, h1] at h
      | ok b =>
          simp only [h3, h1, except_bind_ok, except_map_ok] at h
          injection h with h2
          obtain ⟨hk3, hle3, hg3⟩ := (pyNegGet_ok _ _ _).1 h3
          obtain ⟨hk1, hle1, hg1⟩ := (pyNegGet_ok _ _ _).1 h1
          exact ⟨hle3, a, b, hg3, hg1, h2.symm⟩

/-- C5: whenever the extent is resolved from a native bounding box — the
first entry of the coverage's `boundingboxes` list, or the first re-parsed
describe-coverage envelope — the resulting CRS identifier equals the
3rd-from-last and the last `/`-delimited segments of the native-SRS URI
joined by a colon; in particular the URI ending in `EPSG/0/4326` yields
exactly `EPSG:4326`. -/
theorem native_bbox_crs_spec :
    (∀ (c : WcsContent) (b : NativeBoundingBox) (rest : List NativeBoundingBox)
        (r : BBoxResult),
        c.boundingBox = .ok none → c.boundingBoxWGS84 = .ok none →
        c.boundingboxes = .ok (b :: rest) → get_bbox c = .ok r →
        ∃ s3 s1,
          (srsParts b.nativeSrs).get? ((srsParts b.nativeSrs).length - 3) = some s3 ∧
          (srsParts b.nativeSrs).get? ((srsParts b.nativeSrs).length - 1) = some s1 ∧
          r.crs = some (s3 ++ ":" ++ s1)) ∧
    (∀ (c : WcsContent) (b : NativeBoundingBox) (rest : List NativeBoundingBox)
        (r : BBoxResult),
        c.boundingBox = .ok none → c.boundingBoxWGS84 = .ok none →
        c.boundingboxes = .ok [] →
        getOtherBoundingBoxes c.describeCoverage = .ok (b :: rest) →
        get_bbox c = .ok r →
        ∃ s3 s1,
          (srsParts b.nativeSrs).get? ((srsParts b.nativeSrs).length - 3) = some s3 ∧
          (srsParts b.nativeSrs).get? ((srsParts b.nativeSrs).length - 1) = some s1 ∧
          r.crs = some (s3 ++ ":" ++ s1)) ∧
    crs_from_srid_url "http://www.opengis.net/def/crs/EPSG/0/4326" = .ok "EPSG:4326" := by
  refine ⟨?_, ?_, by decide⟩
  · intro c b rest r h1 h2 h3 h
    unfold get_bbox at h
    simp only [h1, h2, h3, except_bind_ok, List.length_cons] at h
    rw [if_pos (by simp)] at h
    cases hc : crs_from_srid_url b.nativeSrs with
    | error e => simp [hc] at h
    | ok s =>
        simp only [hc, except_bind_ok, except_pure_def] at h
        obtain ⟨hle, s3, s1, hg3, hg1, hs⟩ := crs_from_srid_url_ok _ _ hc
        refine ⟨s3, s1, hg3, hg1, ?_⟩
        injection h with h4
        rw [← h4, hs]
  · intro c b rest r h1 h2 h3 h4 h
    unfold get_bbox at h
    simp only [h1, h2, h3, h4, except_bind_ok, List.length_nil] at h
    rw [if_neg (by simp)] at h
    cases hc : crs_from_srid_url b.nativeSrs with
    | error e => simp [hc] at h
    | ok s =>
        simp only [hc, except_bind_ok] at h
        cases ht : b.temporal_extent with
        | none => simp [ht] at h
        | some t =>
            simp only [ht, except_bind_ok, except_pure_def] at h
            obtain ⟨hle, s3, s1, hg3, hg1, hs⟩ := crs_from_srid_url_ok _ _ hc
            refine ⟨s3, s1, hg3, hg1, ?_⟩
            injection h with h5
            rw [← h5, hs]

/-- A coverage carrying one native bounding box with an OGC URN-style SRS
URI. -/
def coverage_with_native_bbox : WcsContent :=
  ⟨some "c", none, none, [], .ok none, .ok none,
    .ok [⟨"http://www.opengis.net/def/crs/EPSG/0/4326", (1, 2, 3, 4), none⟩],
    .error .exn⟩

/-- Witness for C5 on a concrete native bounding box. -/
theorem native_bbox_crs_witness :
    ∃ s3 s1,
      (srsParts "http://www.opengis.net/def/crs/EPSG/0/4326").get?
        ((srsParts "http://www.opengis.net/def/crs/EPSG/0/4326").length - 3) =
        some s3 ∧
      (srsParts "http://www.opengis.net/def/crs/EPSG/0/4326").get?
        ((srsParts "http://www.opengis.net/def/crs/EPSG/0/4326").length - 1) =
        some s1 ∧
      (⟨some "EPSG:4326", none, polygon_from_bbox (1, 2, 3, 4)⟩ : BBoxResult).crs =
        some (s3 ++ ":" ++ s1) :=
  native_bbox_crs_spec.1 coverage_with_native_bbox
    ⟨"http://www.opengis.net/def/crs/EPSG/0/4326", (1, 2, 3, 4), none⟩ []
    ⟨some "EPSG:4326", none, polygon_from_bbox (1, 2, 3, 4)⟩
    (by decide) (by decide) (by decide) (by decide)

/-- Every successful `_get_bbox` result carries the closed four-corner
polygon of some rectangle as its spatial extent. -/
theorem get_bbox_ok_polygon (c : WcsContent) (r : BBoxResult)
    (h : get_bbox c = .ok r) :
    ∃ x0 y0 x1 y1 : ℚ,
      r.spatial_extent = [(x0, y0), (x1, y0), (x1, y1), (x0, y1), (x0, y0)] := by
  unfold get_bbox at h
  cases hbb : c.boundingBox with
  | error e => simp [hbb] at h
  | ok o =>
  simp only [hbb, except_bind_ok] at h
  cases o with
  | some rect =>
      obtain ⟨x0, y0, x1, y1⟩ := rect
      injection h with h2
      exact ⟨x0, y0, x1, y1, by rw [← h2]; rfl⟩
  | none =>
  cases hw : c.boundingBoxWGS84 with
  | error e => simp [hw] at h
  | ok o2 =>
  simp only [hw, except_bind_ok] at h
  cases o2 with
  | some rect =>
      obtain ⟨x0, y0, x1, y1⟩ := rect
      injection h with h2
      exact ⟨x0, y0, x1, y1, by rw [← h2]; rfl⟩
  | none =>
  cases hbx : c.boundingboxes with
  | ok l =>
    cases l with
    | cons b rest =>
        obtain ⟨srs, ⟨x0, y0, x1, y1⟩, tmp⟩ := b
        simp only [hbx, List.length_cons] at h
        rw [if_pos (by simp)] at h
        cases hc : crs_from_srid_url srs with
        | error e => simp [hc] at h
        | ok s =>
            simp only [hc, except_bind_ok, except_pure_def] at h
            injection h with h2
            exact ⟨x0, y0, x1, y1, by rw [← h2]; rfl⟩
    | nil =>
        simp only [hbx, List.length_nil] at h
        rw [if_neg (by simp)] at h
        cases hd : getOtherBoundingBoxes c.describeCoverage with
        | error e =>
            simp only [hd] at h
            injection h with h2
            exact ⟨-180, -90, 180, 90, by rw [← h2]; rfl⟩
        | ok ol =>
          cases ol with
          | nil =>
              simp only [hd] at h
              injection h with h2
              exact ⟨-180, -90, 180, 90, by rw [← h2]; rfl⟩
          | cons b orest =>
              obtain ⟨srs, ⟨x0, y0, x1, y1⟩, tmp⟩ := b
              simp only [hd] at h
              cases hc : crs_from_srid_url srs with
              | error e => simp [hc] at h
              | ok s =>
                  simp only [hc, except_bind_ok] at h
                  cases tmp with
                  | none => simp at h
                  | some t =>
                      simp only [except_bind_ok, except_pure_def] at h
                      injection h with h2
                      exact ⟨x0, y0, x1, y1, by rw [← h2]; rfl⟩
  | error e =>
      simp only [hbx] at h
      rw [if_neg (by simp)] at h
      cases hd : getOtherBoundingBoxes c.describeCoverage with
      | error e2 =>
          simp only [hd] at h
          injection h with h2
          exact ⟨-180, -90, 180, 90, by rw [← h2]; rfl⟩
      | ok ol =>
        cases ol with
        | nil =>
            simp only [hd] at h
            injection h with h2
            exact ⟨-180, -90, 180, 90, by rw [← h2]; rfl⟩
        | cons b orest =>
            obtain ⟨srs, ⟨x0, y0, x1, y1⟩, tmp⟩ := b
            simp only [hd] at h
            cases hc : crs_from_srid_url srs with
            | error e2 => simp [hc] at h
            | ok s =>
                simp only [hc, except_bind_ok] at h
                cases tmp with
                | none => simp at h
                | some t =>
                    simp only [except_bind_ok, except_pure_def] at h
                    injection h with h2
                    exact ⟨x0, y0, x1, y1, by rw [← h2]; rfl⟩

/-- C4: the resolved extent of every successful bounding-box resolution
contains a spatial extent, the closed 4-corner polygon
(min_x, min_y), (max_x, min_y), (max_x, max_y), (min_x, max_y) of the
resolved rectangle closed back to the start; and when no source yields any
bounding-box information, the result is exactly the whole-globe WGS84
rectangle -180,-90,180,90 with CRS `EPSG:4326` and no temporal extent. -/
theorem spatial_extent_polygon_spec :
    (∀ (c : WcsContent) (r : BBoxResult), get_bbox c = .ok r →
        ∃ x0 y0 x1 y1 : ℚ,
          r.spatial_extent = [(x0, y0), (x1, y0), (x1, y1), (x0, y1), (x0, y0)]) ∧
    (∀ c : WcsContent,
        c.boundingBox = .ok none → c.boundingBoxWGS84 = .ok none →
        (c.boundingboxes = .ok [] ∨ ∃ e, c.boundingboxes = .error e) →
        (getOtherBoundingBoxes c.describeCoverage = .ok [] ∨
          ∃ e, getOtherBoundingBoxes c.describeCoverage = .error e) →
        get_bbox c = .ok ⟨some "EPSG:4326", none,
          polygon_from_bbox (-180, -90, 180, 90)⟩) := by
  refine ⟨get_bbox_ok_polygon, ?_⟩
  intro c h1 h2 h3 h4
  unfold get_bbox
  rcases h3 with h3 | ⟨e, h3⟩ <;> rcases h4 with h4 | ⟨e2, h4⟩ <;>
    simp [h1, h2, h3, h4]

/-- A coverage with no bounding-box information resolvable through any
source. -/
def coverage_without_bbox_info : WcsContent :=
  ⟨some "c", none, none, [], .ok none, .ok none, .ok [], .error .exn⟩

/-- Witness for C4 on a coverage with no resolvable bounding box. -/
theorem spatial_extent_polygon_witness :
    (∃ x0 y0 x1 y1 : ℚ,
      (⟨some "EPSG:4326", none, polygon_from_bbox (-180, -90, 180, 90)⟩ :
          BBoxResult).spatial_extent =
        [(x0, y0), (x1, y0), (x1, y1), (x0, y1), (x0, y0)]) ∧
    get_bbox coverage_without_bbox_info =
      .ok ⟨some "EPSG:4326", none, polygon_from_bbox (-180, -90, 180, 90)⟩ :=
  ⟨spatial_extent_polygon_spec.1 coverage_without_bbox_info _
      (spatial_extent_polygon_spec.2 coverage_without_bbox_info (by decide)
        (by decide) (Or.inl (by decide)) (Or.inl (by decide))),
    spatial_extent_polygon_spec.2 coverage_without_bbox_info (by decide)
      (by decide) (Or.inl (by decide)) (Or.inl (by decide))⟩

/-- Successful positive indexing. -/
theorem pyGet_of (l : List α) (i : ℕ) (a : α) (h : l.get? i = some a) :
    pyGet l i = .ok a := by
  unfold pyGet; rw [h]

/-- Successful float conversion. -/
theorem pyFloatE_of (s : String) (q : ℚ) (h : pyFloat s = some q) :
    pyFloatE s = .ok q := by
  unfold pyFloatE; rw [h]

/-- Successful int conversion. -/
theorem pyIntE_of (s : String) (n : ℤ) (h : pyInt s = some n) :
    pyIntE s = .ok n := by
  unfold pyIntE; rw [h]

/-- General behavior of the envelope parser on 3-dimensional envelopes: the
first axis is time (all double quotes removed from its corner tokens), and
axes 2 and 3 give the rectangle, swapped to (x, y) order when axis label 2
is latitude-like and axis label 3 is longitude-like. -/
theorem envelope3d_general (e : Envelope)
    (srs ds ls lct uct a1 a2 t0 t1 l1 l2 u1 u2 : String) (q1 q2 q3 q4 : ℚ)
    (h1 : e.srsName = some srs) (h2 : e.srsDimension = some ds)
    (h3 : pyInt ds = some 3) (h4 : e.axisLabels = some ls)
    (h5 : e.lowerCorner = some lct) (h6 : e.upperCorner = some uct)
    (ha1 : (pyLowerSplit ls).get? 1 = some a1)
    (ha2 : (pyLowerSplit ls).get? 2 = some a2)
    (ht0 : (pyWsSplit lct).get? 0 = some t0)
    (ht1 : (pyWsSplit uct).get? 0 = some t1)
    (hl1 : (pyWsSplit lct).get? 1 = some l1)
    (hl2 : (pyWsSplit lct).get? 2 = some l2)
    (hu1 : (pyWsSplit uct).get? 1 = some u1)
    (hu2 : (pyWsSplit uct).get? 2 = some u2)
    (hf1 : pyFloat l1 = some q1) (hf2 : pyFloat l2 = some q2)
    (hf3 : pyFloat u1 = some q3) (hf4 : pyFloat u2 = some q4) :
    parseEnvelope e = .ok ⟨srs,
      if a1 ∈ y_labels ∧ a2 ∈ x_labels then (q2, q1, q4, q3)
      else (q1, q2, q3, q4),
      some (removeQuotes t0, removeQuotes t1)⟩ := by
  unfold parseEnvelope
  rw [h1, h2, h4, h5, h6]
  simp only [pyAttrib, pyText, except_bind_ok, pyIntE_of ds 3 h3,
    pyGet_of _ _ _ ha1, pyGet_of _ _ _ ha2, pyGet_of _ _ _ ht0,
    pyGet_of _ _ _ ht1, pyGet_of _ _ _ hl1, pyGet_of _ _ _ hl2,
    pyGet_of _ _ _ hu1, pyGet_of _ _ _ hu2,
    pyFloatE_of _ _ hf1, pyFloatE_of _ _ hf2, pyFloatE_of _ _ hf3,
    pyFloatE_of _ _ hf4, except_pure_def]
  by_cases hy : a1 ∈ y_labels
  · by_cases hx : a2 ∈ x_labels
    · simp [hy, hx]
    · simp [hy, hx]
  · simp [hy]

/-- Literal reading of the original claim's words: strip one surrounding
pair of double quotes, leaving interior quotes in place (the source instead
removes every double quote). -/
def stripSurroundingQuotes (s : String) : String :=
  let cs := s.toList
  if 2 ≤ cs.length ∧ cs.head? = some '"' ∧ cs.getLast? = some '"' then
    String.mk (cs.drop 1).dropLast
  else s

/-- C2 as stated fails: on a 3-dimensional envelope whose first time token
carries an interior double quote, the code removes every double quote from
the temporal corner value, not only the surrounding pair, so the temporal
extent differs from the claimed surrounding-stripped values. -/
theorem envelope3d_quotes_counterexample :
    parseEnvelope ⟨some "srs", some "3", some "ansi lat long",
        some "\"x\"y\" 10 20", some "\"2020-12-31\" 30 40"⟩ =
      .ok ⟨"srs", (20, 10, 40, 30), some ("xy", "2020-12-31")⟩ ∧
    ("xy", "2020-12-31") ≠
      (stripSurroundingQuotes "\"x\"y\"",
        stripSurroundingQuotes "\"2020-12-31\"") := by
  exact ⟨by decide, by decide⟩

/-- C2 (amended): for every envelope parsed from describe-coverage XML with
srsDimension 3, the first axis is treated as time — its lower/upper corner
tokens with all double-quote characters removed become the temporal
extent — and the spatial rectangle is built from axes 2 and 3, swapped to
(x, y) order when axis label 2 is lat-like and axis label 3 is lon-like; in
particular for labels ansi/lat/long and corners
2020-01-01,10,20 / 2020-12-31,30,40 the result is the spatial bbox
(20, 10, 40, 30) with temporal extent 2020-01-01 to 2020-12-31. -/
theorem envelope3d_time_axis_spec :
    (∀ (e : Envelope)
        (srs ds ls lct uct a1 a2 t0 t1 l1 l2 u1 u2 : String) (q1 q2 q3 q4 : ℚ),
        e.srsName = some srs → e.srsDimension = some ds →
        pyInt ds = some 3 → e.axisLabels = some ls →
        e.lowerCorner = some lct → e.upperCorner = some uct →
        (pyLowerSplit ls).get? 1 = some a1 →
        (pyLowerSplit ls).get? 2 = some a2 →
        (pyWsSplit lct).get? 0 = some t0 →
        (pyWsSplit uct).get? 0 = some t1 →
        (pyWsSplit lct).get? 1 = some l1 →
        (pyWsSplit lct).get? 2 = some l2 →
        (pyWsSplit uct).get? 1 = some u1 →
        (pyWsSplit uct).get? 2 = some u2 →
        pyFloat l1 = some q1 → pyFloat l2 = some q2 →
        pyFloat u1 = some q3 → pyFloat u2 = some q4 →
        parseEnvelope e = .ok ⟨srs,
          if a1 ∈ y_labels ∧ a2 ∈ x_labels then (q2, q1, q4, q3)
          else (q1, q2, q3, q4),
          some (removeQuotes t0, removeQuotes t1)⟩) ∧
    parseEnvelope ⟨some "http://www.opengis.net/def/crs/EPSG/0/4326", some "3",
        some "ansi lat long", some "\"2020-01-01\" 10 20",
        some "\"2020-12-31\" 30 40"⟩ =
      .ok ⟨"http://www.opengis.net/def/crs/EPSG/0/4326", (20, 10, 40, 30),
        some ("2020-01-01", "2020-12-31")⟩ := by
  exact ⟨envelope3d_general, by decide⟩

/-- Witness for C2 at the claim's concrete envelope. -/
theorem envelope3d_time_axis_witness :
    parseEnvelope ⟨some "u", some "3", some "ansi lat long",
        some "\"2020-01-01\" 10 20", some "\"2020-12-31\" 30 40"⟩ =
      .ok ⟨"u",
        if "lat" ∈ y_labels ∧ "long" ∈ x_labels then ((20 : ℚ), 10, 40, 30)
        else (10, 20, 30, 40),
        some (removeQuotes "\"2020-01-01\"", removeQuotes "\"2020-12-31\"")⟩ :=
  envelope3d_time_axis_spec.1
    ⟨some "u", some "3", some "ansi lat long", some "\"2020-01-01\" 10 20",
      some "\"2020-12-31\" 30 40"⟩
    "u" "3" "ansi lat long" "\"2020-01-01\" 10 20" "\"2020-12-31\" 30 40"
    "lat" "long" "\"2020-01-01\"" "\"2020-12-31\"" "10" "20" "30" "40"
    10 20 30 40 rfl rfl (by decide) rfl rfl rfl (by decide) (by decide)
    (by decide) (by decide) (by decide) (by decide) (by decide) (by decide)
    (by decide) (by decide) (by decide) (by decide)

theorem pyUnquote_cons_ne (c : Char) (l : List Char) (h : c ≠ '%') :
    pyUnquote (c :: l) = c :: pyUnquote l := by
  cases l with
  | nil =>
      rw [pyUnquote]
      intro a b r hc
      exact absurd hc h
  | cons d rest =>
      cases rest with
      | nil =>
          rw [pyUnquote]
          intro a b r hc
          exact absurd hc h
      | cons e rest2 =>
          rw [pyUnquote]
          intro a b r hc
          exact absurd hc h

theorem pyUnquote_no_percent (l : List Char) (h : '%' ∉ l) : pyUnquote l = l := by
  induction l with
  | nil => rfl
  | cons c rest ih =>
      rw [pyUnquote_cons_ne c rest (fun he => h (he ▸ List.mem_cons_self c rest)),
        ih (fun hm => h (List.mem_cons_of_mem c hm))]

theorem pyUnquote_append_no_percent (a b : List Char) (h : '%' ∉ a) :
    pyUnquote (a ++ b) = a ++ pyUnquote b := by
  induction a with
  | nil => rfl
  | cons c rest ih =>
      simp only [List.cons_append]
      rw [pyUnquote_cons_ne c _ (fun he => h (he ▸ List.mem_cons_self c rest)),
        ih (fun hm => h (List.mem_cons_of_mem c hm))]

theorem pyUnquote_hex (a b : Char) (x y : ℕ) (rest : List Char)
    (ha : hexVal a = some x) (hb : hexVal b = some y) :
    pyUnquote ('%' :: a :: b :: rest) = Char.ofNat (16 * x + y) :: pyUnquote rest := by
  rw [pyUnquote, ha, hb]

theorem hexVal_toHexUpper (n : ℕ) (h : n < 16) : hexVal (toHexUpper n) = some n := by
  interval_cases n <;> decide

theorem plusToSpace_spaceToPlus (l : List Char) (h : '+' ∉ l) :
    plusToSpace (spaceToPlus l) = l := by
  induction l with
  | nil => rfl
  | cons c rest ih =>
      have hc : c ≠ '+' := fun he => h (he ▸ List.mem_cons_self c rest)
      simp only [spaceToPlus, plusToSpace, List.map_cons] at *
      by_cases hcs : c = ' '
      · simp [hcs, ih (fun hm => h (List.mem_cons_of_mem c hm))]
      · simp [hcs, hc, ih (fun hm => h (List.mem_cons_of_mem c hm))]

theorem pyUnquote_quotePlusChar (c : Char) (t : List Char) (hc : c.toNat < 128) :
    pyUnquote (quotePlusChar c ++ t) =
      (if c = ' ' then '+' else c) :: pyUnquote t := by
  unfold quotePlusChar
  by_cases hsafe : alwaysSafe c
  · have hne : c ≠ '%' := by
      intro he
      subst he
      simp [alwaysSafe, Char.isAlphanum, Char.isAlpha, Char.isDigit,
        Char.isUpper, Char.isLower] at hsafe
    have hns : c ≠ ' ' := by
      intro he
      subst he
      simp [alwaysSafe, Char.isAlphanum, Char.isAlpha, Char.isDigit,
        Char.isUpper, Char.isLower] at hsafe
    rw [if_pos hsafe]
    simp only [List.cons_append, List.nil_append]
    rw [pyUnquote_cons_ne c t hne, if_neg hns]
  · rw [if_neg hsafe]
    by_cases hsp : c = ' '
    · rw [if_pos hsp, if_pos hsp]
      simp only [List.cons_append, List.nil_append]
      rw [pyUnquote_cons_ne '+' t (by decide)]
    · rw [if_neg hsp, if_neg hsp]
      simp only [List.cons_append, List.nil_append]
      rw [pyUnquote_hex _ _ _ _ t
        (hexVal_toHexUpper _ (by omega))
        (hexVal_toHexUpper _ (by omega))]
      congr 1
      have : 16 * (c.toNat / 16 % 16) + c.toNat % 16 = c.toNat := by omega
      rw [this, Char.ofNat_toNat]

theorem spaceToPlus_mem (x : List Char) (d : Char) (h : d ∈ spaceToPlus x) :
    d = '+' ∨ d ∈ x := by
  unfold spaceToPlus at h
  rcases List.mem_map.1 h with ⟨c, hc, he⟩
  by_cases hcs : c = ' '
  · rw [if_pos hcs] at he
    exact Or.inl he.symm
  · rw [if_neg hcs] at he
    exact Or.inr (he ▸ hc)

theorem pyUnquote_quote_plus (x t : List Char) (hx : ∀ c ∈ x, c.toNat < 128) :
    pyUnquote (quote_plus x ++ t) = spaceToPlus x ++ pyUnquote t := by
  induction x with
  | nil => rfl
  | cons c rest ih =>
      rw [quote_plus, List.append_assoc,
        pyUnquote_quotePlusChar c _ (hx c (List.mem_cons_self c rest))]
      have : spaceToPlus (c :: rest) =
          (if c = ' ' then '+' else c) :: spaceToPlus rest := by
        simp [spaceToPlus]
      rw [this, ih (fun d hd => hx d (List.mem_cons_of_mem c hd))]
      rfl

theorem pyUnquote_urlencode (pairs : List (List Char × List Char))
    (hascii : ∀ p ∈ pairs, (∀ c ∈ p.1, c.toNat < 128) ∧ (∀ c ∈ p.2, c.toNat < 128)) :
    pyUnquote (pyUrlencode pairs) = encodedPlus pairs := by
  induction pairs with
  | nil => rfl
  | cons p rest ih =>
      obtain ⟨k, v⟩ := p
      obtain ⟨hk, hv⟩ := hascii (k, v) (List.mem_cons_self _ _)
      have hk2 : ∀ c ∈ k, c.toNat < 128 := hk
      have hv2 : ∀ c ∈ v, c.toNat < 128 := hv
      cases rest with
      | nil =>
          rw [pyUrlencode, encodedPlus]
          rw [pyUnquote_quote_plus k ('=' :: quote_plus v) hk2,
            pyUnquote_cons_ne '=' _ (by decide)]
          have h2 : pyUnquote (quote_plus v) = spaceToPlus v := by
            have h3 := pyUnquote_quote_plus v [] hv2
            have h4 : pyUnquote ([] : List Char) = [] := rfl
            rw [h4, List.append_nil, List.append_nil] at h3
            exact h3
          rw [h2]
      | cons p2 rest2 =>
          rw [pyUrlencode, encodedPlus]
          simp only [List.append_assoc, List.cons_append]
          rw [pyUnquote_quote_plus k
              ('=' :: (quote_plus v ++ '&' :: pyUrlencode (p2 :: rest2))) hk2,
            pyUnquote_cons_ne '=' _ (by decide),
            pyUnquote_quote_plus v ('&' :: pyUrlencode (p2 :: rest2)) hv2,
            pyUnquote_cons_ne '&' _ (by decide),
            ih (fun q hq => hascii q (List.mem_cons_of_mem _ hq))]
          · intro h
            exact absurd h (by simp)
          · intro h
            exact absurd h (by simp)

theorem splitPred_ne_nil (p : Char → Bool) (l : List Char) : splitPred p l ≠ [] := by
  cases l with
  | nil => simp [splitPred]
  | cons c rest =>
      rw [splitPred]
      cases h : splitPred p rest with
      | nil => simp
      | cons cur others =>
          by_cases hp : p c
          · simp [hp]
          · simp [hp]

theorem splitPred_no_match (p : Char → Bool) (l : List Char)
    (h : ∀ c ∈ l, p c = false) : splitPred p l = [l] := by
  induction l with
  | nil => rfl
  | cons c rest ih =>
      rw [splitPred, ih (fun d hd => h d (List.mem_cons_of_mem c hd))]
      simp [h c (List.mem_cons_self c rest)]

theorem pySplitChar_no_sep (sep : Char) (l : List Char) (h : sep ∉ l) :
    pySplitChar sep l = [l] := by
  unfold pySplitChar
  exact splitPred_no_match _ _ fun c hc => by
    simp only [beq_eq_false_iff_ne, ne_eq]
    intro he
    exact h (he ▸ hc)

theorem pySplitChar_append (sep : Char) (a b : List Char) (h : sep ∉ a) :
    pySplitChar sep (a ++ sep :: b) = a :: pySplitChar sep b := by
  induction a with
  | nil =>
      simp only [List.nil_append]
      unfold pySplitChar
      rw [splitPred]
      cases hsp : splitPred (· == sep) b with
      | nil => exact absurd hsp (splitPred_ne_nil _ _)
      | cons cur others => simp
  | cons c a2 ih =>
      have hc : c ≠ sep := fun he => h (he ▸ List.mem_cons_self c a2)
      have h2 : sep ∉ a2 := fun hm => h (List.mem_cons_of_mem c hm)
      simp only [List.cons_append]
      unfold pySplitChar at ih ⊢
      rw [splitPred, ih h2]
      simp [hc]

theorem splitFirstEq_not_mem (sep : Char) (l : List Char) (h : sep ∉ l) :
    splitFirstEq sep l = none := by
  induction l with
  | nil => rfl
  | cons c rest ih =>
      have hc : c ≠ sep := fun he => h (he ▸ List.mem_cons_self c rest)
      rw [splitFirstEq, if_neg hc, ih (fun hm => h (List.mem_cons_of_mem c hm))]

theorem splitFirstEq_append (sep : Char) (a b : List Char) (h : sep ∉ a) :
    splitFirstEq sep (a ++ sep :: b) = some (a, b) := by
  induction a with
  | nil => simp [splitFirstEq]
  | cons c a2 ih =>
      have hc : c ≠ sep := fun he => h (he ▸ List.mem_cons_self c a2)
      simp only [List.cons_append]
      rw [splitFirstEq, if_neg hc, ih (fun hm => h (List.mem_cons_of_mem c hm))]

theorem splitFirstEq_eq_some (sep : Char) (l a b : List Char)
    (h : splitFirstEq sep l = some (a, b)) : l = a ++ sep :: b ∧ sep ∉ a := by
  induction l generalizing a with
  | nil => simp [splitFirstEq] at h
  | cons c rest ih =>
      rw [splitFirstEq] at h
      by_cases hc : c = sep
      · rw [if_pos hc] at h
        injection h with h2
        injection h2 with h3 h4
        subst h3
        constructor
        · simp [hc, h4]
        · simp
      · rw [if_neg hc] at h
        cases hs : splitFirstEq sep rest with
        | none => rw [hs] at h; simp at h
        | some pr =>
            obtain ⟨a2, b2⟩ := pr
            rw [hs] at h
            simp only [Option.some.injEq, Prod.mk.injEq] at h
            obtain ⟨ha, hb⟩ := h
            subst hb
            obtain ⟨hrest, hnm⟩ := ih a2 hs
            subst ha
            constructor
            · simp [hrest]
            · intro hm
              rcases List.mem_cons.1 hm with he | hm2
              · exact hc he.symm
              · exact hnm hm2

theorem splitPred_cons_eq (p : Char → Bool) (d : Char) (rest cur : List Char)
    (others : List (List Char)) (hs : splitPred p rest = cur :: others) :
    splitPred p (d :: rest) =
      if p d then [] :: cur :: others else (d :: cur) :: others := by
  rw [splitPred, hs]

theorem splitPred_mem (p : Char → Bool) (l : List Char) :
    ∀ piece ∈ splitPred p l, ∀ c ∈ piece, c ∈ l ∧ p c = false := by
  induction l with
  | nil =>
      intro piece hp c hc
      simp [splitPred] at hp
      subst hp
      simp at hc
  | cons d rest ih =>
      intro piece hp c hc
      cases hs : splitPred p rest with
      | nil => exact absurd hs (splitPred_ne_nil _ _)
      | cons cur others =>
          rw [splitPred_cons_eq p d rest cur others hs] at hp
          by_cases hd : p d = true
          · rw [if_pos hd] at hp
            rcases List.mem_cons.1 hp with he | hm
            · subst he; simp at hc
            · have := ih piece (hs ▸ hm) c hc
              exact ⟨List.mem_cons_of_mem d this.1, this.2⟩
          · rw [if_neg hd] at hp
            have hdf : p d = false := by simpa using hd
            rcases List.mem_cons.1 hp with he | hm
            · subst he
              rcases List.mem_cons.1 hc with hce | hcm
              · subst hce
                exact ⟨List.mem_cons_self c rest, hdf⟩
              · have := ih cur (hs ▸ List.mem_cons_self cur others) c hcm
                exact ⟨List.mem_cons_of_mem d this.1, this.2⟩
            · have := ih piece (hs ▸ List.mem_cons_of_mem cur hm) c hc
              exact ⟨List.mem_cons_of_mem d this.1, this.2⟩

theorem plusToSpace_mem (l : List Char) (d : Char) (h : d ∈ plusToSpace l) :
    d = ' ' ∨ d ∈ l := by
  unfold plusToSpace at h
  rcases List.mem_map.1 h with ⟨c, hc, he⟩
  by_cases hcp : c = '+'
  · rw [if_pos hcp] at he
    exact Or.inl he.symm
  · rw [if_neg hcp] at he
    exact Or.inr (he ▸ hc)

theorem plusToSpace_no_plus (l : List Char) : '+' ∉ plusToSpace l := by
  intro h
  unfold plusToSpace at h
  rcases List.mem_map.1 h with ⟨c, hc, he⟩
  by_cases hcp : c = '+'
  · rw [if_pos hcp] at he; exact absurd he.symm (by decide)
  · rw [if_neg hcp] at he; exact hcp (he ▸ rfl)

theorem parse_qsl_mem (q : List Char) (hq : '%' ∉ q) :
    ∀ p ∈ parse_qsl q,
      (∀ c ∈ p.1, c = ' ' ∨ c ∈ q) ∧ (∀ c ∈ p.2, c = ' ' ∨ c ∈ q) ∧
      '+' ∉ p.1 ∧ '+' ∉ p.2 ∧ '=' ∉ p.1 ∧ '&' ∉ p.1 ∧ '&' ∉ p.2 ∧ p.2 ≠ [] := by
  intro p hp
  unfold parse_qsl at hp
  by_cases hq0 : q = []
  · simp [hq0] at hp
  · rw [if_neg hq0] at hp
    rcases List.mem_filterMap.1 hp with ⟨nv, hnv, hf⟩
    by_cases hnv0 : nv = []
    · rw [if_pos hnv0] at hf; simp at hf
    · rw [if_neg hnv0] at hf
      cases hse : splitFirstEq '=' nv with
      | none => rw [hse] at hf; simp at hf
      | some pr =>
          obtain ⟨n, v⟩ := pr
          simp only [hse] at hf
          by_cases hv0 : v = []
          · rw [if_pos hv0] at hf; simp at hf
          · rw [if_neg hv0] at hf
            simp only [Option.some.injEq] at hf
            obtain ⟨hnvq, hneq⟩ := splitFirstEq_eq_some '=' nv n v hse
            have hnvprops : ∀ c ∈ nv, c ∈ q ∧ (c == '&') = false :=
              splitPred_mem (· == '&') q nv hnv
            have hnq : ∀ c ∈ n, c ∈ q ∧ c ≠ '&' := by
              intro c hc
              have hm : c ∈ nv := hnvq ▸ List.mem_append_left _ hc
              have := hnvprops c hm
              exact ⟨this.1, by simpa using this.2⟩
            have hvq : ∀ c ∈ v, c ∈ q ∧ c ≠ '&' := by
              intro c hc
              have hm : c ∈ nv :=
                hnvq ▸ List.mem_append_right _ (List.mem_cons_of_mem _ hc)
              have := hnvprops c hm
              exact ⟨this.1, by simpa using this.2⟩
            have hpn : '%' ∉ plusToSpace n := by
              intro hmem
              rcases plusToSpace_mem n '%' hmem with he | hin
              · exact absurd he (by decide)
              · exact hq (hnq '%' hin).1
            have hpv : '%' ∉ plusToSpace v := by
              intro hmem
              rcases plusToSpace_mem v '%' hmem with he | hin
              · exact absurd he (by decide)
              · exact hq (hvq '%' hin).1
            rw [pyUnquote_no_percent _ hpn, pyUnquote_no_percent _ hpv] at hf
            subst hf
            refine ⟨?_, ?_, plusToSpace_no_plus n, plusToSpace_no_plus v, ?_, ?_, ?_, ?_⟩
            · intro c hc
              rcases plusToSpace_mem n c hc with he | hin
              · exact Or.inl he
              · exact Or.inr (hnq c hin).1
            · intro c hc
              rcases plusToSpace_mem v c hc with he | hin
              · exact Or.inl he
              · exact Or.inr (hvq c hin).1
            · intro hc
              rcases plusToSpace_mem n '=' hc with he | hin
              · exact absurd he (by decide)
              · exact hneq hin
            · intro hc
              rcases plusToSpace_mem n '&' hc with he | hin
              · exact absurd he (by decide)
              · exact (hnq '&' hin).2 rfl
            · intro hc
              rcases plusToSpace_mem v '&' hc with he | hin
              · exact absurd he (by decide)
              · exact (hvq '&' hin).2 rfl
            · simp only [plusToSpace, ne_eq, List.map_eq_nil]
              exact hv0

theorem spaceToPlus_not_mem (l : List Char) (c : Char) (hc : c ∉ l)
    (hcp : c ≠ '+') : c ∉ spaceToPlus l := by
  intro hm
  rcases spaceToPlus_mem l c hm with he | hin
  · exact hcp (he ▸ rfl)
  · exact hc hin

theorem encodedPlus_ne_nil (p : List Char × List Char)
    (rest : List (List Char × List Char)) : encodedPlus (p :: rest) ≠ [] := by
  obtain ⟨k, v⟩ := p
  cases rest with
  | nil => rw [encodedPlus]; simp
  | cons p2 rest2 =>
      rw [encodedPlus]
      · simp
      · intro h
        exact absurd h (by simp)

theorem parse_qsl_append_amp (A B : List Char) (hA : '&' ∉ A) (hA0 : A ≠ [])
    (hB0 : B ≠ []) :
    parse_qsl (A ++ '&' :: B) = parse_qsl A ++ parse_qsl B := by
  unfold parse_qsl
  rw [if_neg (by simp), if_neg hA0, if_neg hB0,
    pySplitChar_append '&' A B hA, pySplitChar_no_sep '&' A hA,
    ← List.filterMap_append]
  rfl

theorem parse_qsl_single (k v : List Char) (hk1 : '&' ∉ k) (hv1 : '&' ∉ v)
    (hk2 : '=' ∉ k) (hk3 : '%' ∉ k) (hv3 : '%' ∉ v) (hk4 : '+' ∉ k)
    (hv4 : '+' ∉ v) (hv5 : v ≠ []) :
    parse_qsl (spaceToPlus k ++ '=' :: spaceToPlus v) = [(k, v)] := by
  have hamp : '&' ∉ spaceToPlus k ++ '=' :: spaceToPlus v := by
    intro hm
    rcases List.mem_append.1 hm with h | h
    · exact spaceToPlus_not_mem k '&' hk1 (by decide) h
    · rcases List.mem_cons.1 h with he | h2
      · exact absurd he (by decide)
      · exact spaceToPlus_not_mem v '&' hv1 (by decide) h2
  unfold parse_qsl
  rw [if_neg (by simp), pySplitChar_no_sep '&' _ hamp]
  simp only [List.filterMap_cons, List.filterMap_nil]
  rw [if_neg (by simp)]
  rw [splitFirstEq_append '=' _ _ (spaceToPlus_not_mem k '=' hk2 (by decide))]
  simp only []
  rw [if_neg (by simp [spaceToPlus, hv5])]
  rw [plusToSpace_spaceToPlus k hk4, pyUnquote_no_percent k hk3,
    plusToSpace_spaceToPlus v hv4, pyUnquote_no_percent v hv3]

theorem parse_qsl_encodedPlus (pairs : List (List Char × List Char))
    (hok : ∀ p ∈ pairs, '&' ∉ p.1 ∧ '&' ∉ p.2 ∧ '=' ∉ p.1 ∧ '%' ∉ p.1 ∧
      '%' ∉ p.2 ∧ '+' ∉ p.1 ∧ '+' ∉ p.2 ∧ p.2 ≠ []) :
    parse_qsl (encodedPlus pairs) = pairs := by
  induction pairs with
  | nil => rfl
  | cons p rest ih =>
      obtain ⟨k, v⟩ := p
      obtain ⟨hk1, hv1, hk2, hk3, hv3, hk4, hv4, hv5⟩ :=
        hok (k, v) (List.mem_cons_self _ _)
      have hamp : '&' ∉ spaceToPlus k ++ '=' :: spaceToPlus v := by
        intro hm
        rcases List.mem_append.1 hm with h | h
        · exact spaceToPlus_not_mem k '&' hk1 (by decide) h
        · rcases List.mem_cons.1 h with he | h2
          · exact absurd he (by decide)
          · exact spaceToPlus_not_mem v '&' hv1 (by decide) h2
      cases rest with
      | nil =>
          rw [encodedPlus]
          exact parse_qsl_single k v hk1 hv1 hk2 hk3 hv3 hk4 hv4 hv5
      | cons p2 rest2 =>
          rw [encodedPlus, parse_qsl_append_amp _ _ hamp (by simp)
            (encodedPlus_ne_nil p2 rest2),
            parse_qsl_single k v hk1 hv1 hk2 hk3 hv3 hk4 hv4 hv5,
            ih (fun q hq => hok q (List.mem_cons_of_mem _ hq))]
          · rfl
          · intro h
            exact absurd h (by simp)

theorem dictInsert_mem (d : List (List Char × List Char)) (k v : List Char)
    (p : List Char × List Char) (h : p ∈ dictInsert d k v) :
    p ∈ d ∨ p = (k, v) := by
  unfold dictInsert at h
  by_cases hh : d.any (fun q => q.1 == k)
  · rw [if_pos hh] at h
    rcases List.mem_map.1 h with ⟨q, hq, he⟩
    by_cases hqk : q.1 == k
    · rw [if_pos hqk] at he
      exact Or.inr he.symm
    · rw [if_neg hqk] at he
      exact Or.inl (he ▸ hq)
  · rw [if_neg hh] at h
    rcases List.mem_append.1 h with h2 | h2
    · exact Or.inl h2
    · simp at h2
      exact Or.inr h2

theorem foldl_dictInsert_mem (l d : List (List Char × List Char))
    (p : List Char × List Char)
    (h : p ∈ l.foldl (fun acc q => dictInsert acc q.1 q.2) d) : p ∈ d ∨ p ∈ l := by
  induction l generalizing d with
  | nil => exact Or.inl h
  | cons q rest ih =>
      rcases ih (dictInsert d q.1 q.2) h with h2 | h2
      · rcases dictInsert_mem d q.1 q.2 p h2 with h3 | h3
        · exact Or.inl h3
        · exact Or.inr (by rw [h3, Prod.mk.eta]; exact List.mem_cons_self q rest)
      · exact Or.inr (List.mem_cons_of_mem q h2)

theorem pyDict_mem (l : List (List Char × List Char))
    (p : List Char × List Char) (h : p ∈ pyDict l) : p ∈ l := by
  rcases foldl_dictInsert_mem l [] p h with h2 | h2
  · simp at h2
  · exact h2

theorem dictInsert_keys_nodup (d : List (List Char × List Char)) (k v : List Char)
    (h : (d.map Prod.fst).Nodup) : ((dictInsert d k v).map Prod.fst).Nodup := by
  unfold dictInsert
  by_cases hh : d.any (fun q => q.1 == k)
  · rw [if_pos hh]
    have he : (d.map fun q => if q.1 == k then (k, v) else q).map Prod.fst =
        d.map Prod.fst := by
      rw [List.map_map]
      apply List.map_congr_left
      intro q hq
      by_cases hqk : q.1 == k
      · simp only [Function.comp_apply, if_pos hqk]
        exact (eq_of_beq hqk).symm
      · simp only [Function.comp_apply, if_neg hqk]
    rw [he]
    exact h
  · rw [if_neg hh, List.map_append]
    have hk : k ∉ d.map Prod.fst := by
      intro hm
      rcases List.mem_map.1 hm with ⟨q, hq, he⟩
      rw [List.any_eq_true] at hh
      exact hh ⟨q, hq, by simp [he]⟩
    simp only [List.map_cons, List.map_nil]
    rw [List.nodup_append]
    exact ⟨h, List.nodup_singleton k, by
      intro a ha hb
      simp at hb
      exact hk (hb ▸ ha)⟩

theorem foldl_dictInsert_nodup (l d : List (List Char × List Char))
    (h : (d.map Prod.fst).Nodup) :
    ((l.foldl (fun acc q => dictInsert acc q.1 q.2) d).map Prod.fst).Nodup := by
  induction l generalizing d with
  | nil => exact h
  | cons q rest ih => exact ih _ (dictInsert_keys_nodup d q.1 q.2 h)

theorem pyDict_keys_nodup (l : List (List Char × List Char)) :
    ((pyDict l).map Prod.fst).Nodup :=
  foldl_dictInsert_nodup l [] (by simp)

theorem foldl_dictInsert_append (l d : List (List Char × List Char))
    (hd : ∀ p ∈ l, ∀ q ∈ d, p.1 ≠ q.1) (hl : (l.map Prod.fst).Nodup) :
    l.foldl (fun acc q => dictInsert acc q.1 q.2) d = d ++ l := by
  induction l generalizing d with
  | nil => simp
  | cons q rest ih =>
      simp only [List.map_cons, List.nodup_cons] at hl
      obtain ⟨hqn, hrestn⟩ := hl
      have hq1 : ¬d.any (fun r => r.1 == q.1) := by
        rw [List.any_eq_true]
        rintro ⟨r, hr, hrq⟩
        exact hd q (List.mem_cons_self q rest) r hr (eq_of_beq hrq).symm
      rw [List.foldl_cons]
      have hins : dictInsert d q.1 q.2 = d ++ [q] := by
        unfold dictInsert
        rw [if_neg hq1, Prod.mk.eta]
      rw [hins, ih (d ++ [q]) ?_ hrestn]
      · simp
      · intro p hp r hr
        rcases List.mem_append.1 hr with h2 | h2
        · exact hd p (List.mem_cons_of_mem q hp) r h2
        · simp only [List.mem_singleton] at h2
          subst h2
          intro he
          exact hqn (he ▸ List.mem_map_of_mem Prod.fst hp)

theorem pyDict_eq_self (l : List (List Char × List Char))
    (h : (l.map Prod.fst).Nodup) : pyDict l = l := by
  unfold pyDict
  rw [foldl_dictInsert_append l [] (by intro p hp q hq; simp at hq) h]
  simp

theorem dictRemove_mem (d : List (List Char × List Char)) (k : List Char)
    (p : List Char × List Char) (h : p ∈ dictRemove d k) : p ∈ d :=
  List.mem_of_mem_filter h

theorem dictRemove_not_key (d : List (List Char × List Char)) (k : List Char) :
    ∀ p ∈ dictRemove d k, p.1 ≠ k := by
  intro p hp
  have := List.of_mem_filter hp
  simpa using this

theorem dictRemove_eq_self (d : List (List Char × List Char)) (k : List Char)
    (h : ∀ p ∈ d, p.1 ≠ k) : dictRemove d k = d := by
  unfold dictRemove
  rw [List.filter_eq_self]
  intro p hp
  simpa using h p hp

theorem dictHasKey_eq_false (d : List (List Char × List Char)) (k : List Char)
    (h : ∀ p ∈ d, p.1 ≠ k) : dictHasKey d k = false := by
  unfold dictHasKey
  rw [List.any_eq_false]
  intro p hp
  simpa using h p hp

theorem dictRemove_keys_nodup (d : List (List Char × List Char)) (k : List Char)
    (h : (d.map Prod.fst).Nodup) : ((dictRemove d k).map Prod.fst).Nodup :=
  ((List.filter_sublist d).map Prod.fst).nodup h

theorem takeWhile_append_cons (p : Char → Bool) (a : List Char) (x : Char)
    (b : List Char) (ha : ∀ c ∈ a, p c = true) (hx : p x = false) :
    (a ++ x :: b).takeWhile p = a ∧ (a ++ x :: b).dropWhile p = x :: b := by
  induction a with
  | nil => simp [List.takeWhile_cons, List.dropWhile_cons, hx]
  | cons c a2 ih =>
      have hc := ha c (List.mem_cons_self c a2)
      have ih2 := ih (fun d hd => ha d (List.mem_cons_of_mem c hd))
      simp only [List.cons_append, List.takeWhile_cons, List.dropWhile_cons, hc]
      simp [ih2.1, ih2.2]

theorem findIdx_sep (a b : List Char) (sep : Char) (h : sep ∉ a) :
    (a ++ sep :: b).findIdx? (· == sep) = some a.length := by
  rw [List.findIdx?_append]
  have h1 : a.findIdx? (· == sep) = none := by
    rw [List.findIdx?_eq_none_iff]
    intro x hx
    simp only [beq_eq_false_iff_ne, ne_eq]
    intro he
    exact h (he ▸ hx)
  rw [h1, List.findIdx?_cons]
  simp

theorem drop_sep (a b : List Char) (sep : Char) :
    (a ++ sep :: b).drop (a.length + 1) = b := by
  have : a ++ sep :: b = (a ++ [sep]) ++ b := by simp
  rw [this]
  have h2 : (a ++ [sep]).length = a.length + 1 := by simp
  rw [← h2, List.drop_left]

theorem lowerAlpha_scheme_chars : ∀ c ∈ lowerAlpha, c ∈ scheme_chars := by decide

theorem lowerAlpha_toLower : ∀ c ∈ lowerAlpha, c.toLower = c := by decide

theorem lowerAlpha_isAlpha : ∀ c ∈ lowerAlpha, c.isAlpha = true := by decide

theorem lowerAlpha_ne : ∀ c ∈ lowerAlpha,
    c ≠ ':' ∧ c ≠ '%' ∧ c ≠ '\t' ∧ c ≠ '\r' ∧ c ≠ '\n' := by decide

theorem lowerAlpha_not_ctrl : ∀ c ∈ lowerAlpha, ¬(c.toNat ≤ 32) := by decide

theorem pyUrlsplit_structured (scheme netloc path qtail : List Char)
    (hs1 : scheme ≠ []) (hs2 : ∀ c ∈ scheme, c ∈ lowerAlpha)
    (hn1 : netloc ≠ []) (hn2 : ∀ c ∈ netloc, okNetlocChar c)
    (hp0 : ∃ p2, path = '/' :: p2)
    (hp : ∀ c ∈ path, okPathChar c)
    (hqn : ∀ c ∈ qtail.tail, c ≠ '#' ∧ c ≠ '\t' ∧ c ≠ '\r' ∧ c ≠ '\n')
    (hqs : qtail = [] ∨ ∃ q, qtail = '?' :: q) :
    pyUrlsplit (scheme ++ ':' :: '/' :: '/' :: netloc ++ path ++ qtail) =
      .ok ⟨scheme, netloc, path, qtail.tail, []⟩ := by
  obtain ⟨p2, hpath⟩ := hp0
  subst hpath
  unfold pyUrlsplit
  have hmem : ∀ c ∈ scheme ++ ':' :: '/' :: '/' :: netloc ++ ('/' :: p2) ++ qtail,
      c ≠ '\t' ∧ c ≠ '\r' ∧ c ≠ '\n' := by
    intro c hc
    rcases List.mem_append.1 hc with hc | hc
    · rcases List.mem_append.1 hc with hc | hc
      · rcases List.mem_append.1 hc with hc | hc
        · have := lowerAlpha_ne c (hs2 c hc)
          exact ⟨this.2.2.1, this.2.2.2.1, this.2.2.2.2⟩
        · rcases List.mem_cons.1 hc with he | hc
          · subst he; exact ⟨by decide, by decide, by decide⟩
          · rcases List.mem_cons.1 hc with he | hc
            · subst he; exact ⟨by decide, by decide, by decide⟩
            · rcases List.mem_cons.1 hc with he | hc
              · subst he; exact ⟨by decide, by decide, by decide⟩
              · have := hn2 c hc
                exact ⟨this.2.2.2.2.2.2.2.1, this.2.2.2.2.2.2.2.2.1,
                  this.2.2.2.2.2.2.2.2.2⟩
      · have := hp c hc
        exact ⟨this.2.2.2.2.1, this.2.2.2.2.2.1, this.2.2.2.2.2.2⟩
    · rcases hqs with hq0 | ⟨q, hq⟩
      · subst hq0; simp at hc
      · subst hq
        rcases List.mem_cons.1 hc with he | hc2
        · subst he; exact ⟨by decide, by decide, by decide⟩
        · have := hqn c hc2
          exact ⟨this.2.1, this.2.2.1, this.2.2.2⟩
  have hfilter : (scheme ++ ':' :: '/' :: '/' :: netloc ++ ('/' :: p2) ++ qtail).filter
      (fun c => ¬(c = '\t' ∨ c = '\r' ∨ c = '\n')) =
      scheme ++ ':' :: '/' :: '/' :: netloc ++ ('/' :: p2) ++ qtail := by
    rw [List.filter_eq_self]
    intro c hc
    have hok := hmem c hc
    simp [hok.1, hok.2.1, hok.2.2]
  obtain ⟨c0, s2, hs0⟩ : ∃ c0 s2, scheme = c0 :: s2 := by
    cases scheme with
    | nil => exact absurd rfl hs1
    | cons a b => exact ⟨a, b, rfl⟩
  have hc0 : ¬(c0.toNat ≤ 32) :=
    lowerAlpha_not_ctrl c0 (hs2 c0 (hs0 ▸ List.mem_cons_self c0 s2))
  have hstrip : (scheme ++ ':' :: '/' :: '/' :: netloc ++ ('/' :: p2) ++
      qtail).dropWhile (fun c => decide (c.toNat ≤ 32)) =
      scheme ++ ':' :: '/' :: '/' :: netloc ++ ('/' :: p2) ++ qtail := by
    rw [hs0]
    simp [List.dropWhile_cons, hc0]
  simp only [hstrip, hfilter]
  simp only [List.append_assoc, List.cons_append]
  have hcolon : ':' ∉ scheme := fun hm => (lowerAlpha_ne ':' (hs2 ':' hm)).1 rfl
  rw [findIdx_sep scheme _ ':' hcolon]
  have hposs : 0 < scheme.length := by rw [hs0]; simp
  have hhead : ((scheme ++ ':' :: '/' :: '/' ::
      (netloc ++ ('/' :: (p2 ++ qtail)))).headD ' ').isAlpha = true := by
    rw [hs0]
    simp only [List.cons_append, List.headD_cons]
    exact lowerAlpha_isAlpha c0 (hs2 c0 (by rw [hs0]; exact List.mem_cons_self c0 s2))
  have htake : List.take scheme.length
      (scheme ++ ':' :: '/' :: '/' :: (netloc ++ ('/' :: (p2 ++ qtail)))) = scheme :=
    List.take_left scheme _
  have hall : (scheme.all fun x => decide (x ∈ scheme_chars)) = true := by
    rw [List.all_eq_true]
    intro c hc
    simp [lowerAlpha_scheme_chars c (hs2 c hc)]
  have hmap : List.map Char.toLower scheme = scheme := by
    have h1 : List.map Char.toLower scheme = List.map id scheme :=
      List.map_congr_left fun c hc => lowerAlpha_toLower c (hs2 c hc)
    rw [h1, List.map_id]
  have hdrop : List.drop (scheme.length + 1)
      (scheme ++ ':' :: '/' :: '/' :: (netloc ++ ('/' :: (p2 ++ qtail)))) =
      '/' :: '/' :: (netloc ++ ('/' :: (p2 ++ qtail))) := drop_sep scheme _ ':'
  have htk2 : List.take 2 ('/' :: '/' :: (netloc ++ ('/' :: (p2 ++ qtail)))) =
      ['/', '/'] := rfl
  have hdp2 : List.drop 2 ('/' :: '/' :: (netloc ++ ('/' :: (p2 ++ qtail)))) =
      netloc ++ ('/' :: (p2 ++ qtail)) := rfl
  have hnet : netlocSplit (netloc ++ '/' :: (p2 ++ qtail)) =
      (netloc, '/' :: (p2 ++ qtail)) := by
    unfold netlocSplit
    have hcc := takeWhile_append_cons
      (fun c => decide ¬(c = '/' ∨ c = '?' ∨ c = '#')) netloc '/' (p2 ++ qtail)
      (fun c hc => by
        have h := hn2 c hc
        simp [h.1, h.2.1, h.2.2.1])
      (by decide)
    rw [hcc.1, hcc.2]
  have hhash : '#' ∉ ('/' :: (p2 ++ qtail) : List Char) := by
    intro hm
    rcases List.mem_cons.1 hm with he | hm2
    · exact absurd he (by decide)
    · rcases List.mem_append.1 hm2 with h3 | h3
      · exact (hp '#' (List.mem_cons_of_mem _ h3)).2.1 rfl
      · rcases hqs with hq0 | ⟨q, hq⟩
        · subst hq0; simp at h3
        · subst hq
          rcases List.mem_cons.1 h3 with he | h4
          · exact absurd he (by decide)
          · exact (hqn '#' h4).1 rfl
  have hf : splitFirstEq '#' ('/' :: (p2 ++ qtail)) = none :=
    splitFirstEq_not_mem _ _ hhash
  have hnq : '?' ∉ ('/' :: p2 : List Char) := by
    intro hm
    rcases List.mem_cons.1 hm with he | hm2
    · exact absurd he (by decide)
    · exact (hp '?' (List.mem_cons_of_mem _ hm2)).1 rfl
  have hlb : '[' ∉ netloc := fun hm => (hn2 '[' hm).2.2.2.2.1 rfl
  have hrb : ']' ∉ netloc := fun hm => (hn2 ']' hm).2.2.2.2.2.1 rfl
  have hasc : (netloc.all fun c => decide (c.toNat < 128)) = true := by
    rw [List.all_eq_true]
    intro c hc
    simpa using (hn2 c hc).2.2.2.2.2.2.1
  rcases hqs with hq0 | ⟨q, hq⟩
  · subst hq0
    simp only [List.append_nil] at hhead htake hdrop htk2 hdp2 hnet hf ⊢
    have hg : splitFirstEq '?' ('/' :: p2) = none := splitFirstEq_not_mem _ _ hnq
    simp only [hposs, hhead, htake, hall, hmap, hdrop, htk2, hdp2, hnet, hf, hg,
      hlb, hrb, hasc, false_and, or_self, if_false, true_and, and_self, if_true,
      List.tail_nil]
  · subst hq
    have hg : splitFirstEq '?' ('/' :: (p2 ++ '?' :: q)) = some ('/' :: p2, q) := by
      have he : ('/' :: (p2 ++ '?' :: q) : List Char) = ('/' :: p2) ++ '?' :: q := by
        simp
      rw [he]
      exact splitFirstEq_append _ _ _ hnq
    simp only [hposs, hhead, htake, hall, hmap, hdrop, htk2, hdp2, hnet, hf, hg,
      hlb, hrb, hasc, false_and, or_self, if_false, true_and, and_self, if_true,
      List.tail_cons]

theorem encodedPlus_mem (pairs : List (List Char × List Char)) (d : Char)
    (hd : d ∈ encodedPlus pairs) :
    d = '&' ∨ d = '=' ∨ ∃ p ∈ pairs, d ∈ spaceToPlus p.1 ∨ d ∈ spaceToPlus p.2 := by
  induction pairs with
  | nil => simp [encodedPlus] at hd
  | cons p rest ih =>
      obtain ⟨k, v⟩ := p
      cases rest with
      | nil =>
          rw [encodedPlus] at hd
          rcases List.mem_append.1 hd with h | h
          · exact Or.inr (Or.inr ⟨(k, v), List.mem_cons_self _ _, Or.inl h⟩)
          · rcases List.mem_cons.1 h with he | h2
            · exact Or.inr (Or.inl he)
            · exact Or.inr (Or.inr ⟨(k, v), List.mem_cons_self _ _, Or.inr h2⟩)
      | cons p2 rest2 =>
          rw [encodedPlus] at hd
          · rcases List.mem_append.1 hd with h | h
            · rcases List.mem_append.1 h with h1 | h1
              · exact Or.inr (Or.inr ⟨(k, v), List.mem_cons_self _ _, Or.inl h1⟩)
              · rcases List.mem_cons.1 h1 with he | h2
                · exact Or.inr (Or.inl he)
                · exact Or.inr (Or.inr ⟨(k, v), List.mem_cons_self _ _, Or.inr h2⟩)
            · rcases List.mem_cons.1 h with he | h2
              · exact Or.inl he
              · rcases ih h2 with h3 | h3 | ⟨p3, hp3, h4⟩
                · exact Or.inl h3
                · exact Or.inr (Or.inl h3)
                · exact Or.inr (Or.inr ⟨p3, List.mem_cons_of_mem _ hp3, h4⟩)
          · intro h
            exact absurd h (by simp)

theorem pyUrlparse_structured (scheme netloc path qtail : List Char)
    (hs1 : scheme ≠ []) (hs2 : ∀ c ∈ scheme, c ∈ lowerAlpha)
    (hn1 : netloc ≠ []) (hn2 : ∀ c ∈ netloc, okNetlocChar c)
    (hp0 : ∃ p2, path = '/' :: p2)
    (hp : ∀ c ∈ path, okPathChar c)
    (hqn : ∀ c ∈ qtail.tail, c ≠ '#' ∧ c ≠ '\t' ∧ c ≠ '\r' ∧ c ≠ '\n')
    (hqs : qtail = [] ∨ ∃ q, qtail = '?' :: q) :
    pyUrlparse (scheme ++ ':' :: '/' :: '/' :: netloc ++ path ++ qtail) =
      .ok ⟨scheme, netloc, path, [], qtail.tail, []⟩ := by
  unfold pyUrlparse
  rw [pyUrlsplit_structured scheme netloc path qtail hs1 hs2 hn1 hn2 hp0 hp hqn hqs]
  have hno : ¬((⟨scheme, netloc, path, qtail.tail, []⟩ : SplitResult).scheme ∈
      uses_params ∧
      (⟨scheme, netloc, path, qtail.tail, []⟩ : SplitResult).path.contains ';' = true) := by
    intro h
    have h2 : ';' ∈ path := by simpa using h.2
    exact (hp ';' h2).2.2.2.1 rfl
  simp only [except_bind_ok]
  rw [if_neg hno]
  rfl

theorem pyUrlunparse_structured (scheme netloc path enc : List Char)
    (hs1 : scheme ≠ []) (hn1 : netloc ≠ []) (hp0 : ∃ p2, path = '/' :: p2) :
    pyUrlunparse ⟨scheme, netloc, path, [], enc, []⟩ =
      scheme ++ ':' :: '/' :: '/' :: netloc ++ path ++
        (if enc = [] then [] else '?' :: enc) := by
  obtain ⟨p2, hpath⟩ := hp0
  subst hpath
  unfold pyUrlunparse pyUrlunsplit
  by_cases henc : enc = []
  · subst henc
    simp [hs1, hn1]
  · simp [hs1, hn1, henc, List.append_assoc]

theorem cleanArgs_sub (q : List Char) : ∀ p ∈ cleanArgs q, p ∈ parse_qsl q := by
  intro p hp2
  unfold cleanArgs at hp2
  exact pyDict_mem _ _ (dictRemove_mem _ _ _ (dictRemove_mem _ _ _
    (dictRemove_mem _ _ _ hp2)))

theorem cleanArgs_not_keys (q : List Char) : ∀ p ∈ cleanArgs q,
    p.1 ≠ "version".toList ∧ p.1 ≠ "service".toList ∧ p.1 ≠ "request".toList := by
  intro p hp2
  unfold cleanArgs at hp2
  refine ⟨?_, ?_, dictRemove_not_key _ _ p hp2⟩
  · exact dictRemove_not_key _ _ p (dictRemove_mem _ _ _ (dictRemove_mem _ _ _ hp2))
  · exact dictRemove_not_key _ _ p (dictRemove_mem _ _ _ hp2)

theorem cleanArgs_nodup (q : List Char) : ((cleanArgs q).map Prod.fst).Nodup := by
  unfold cleanArgs
  exact dictRemove_keys_nodup _ _ (dictRemove_keys_nodup _ _
    (dictRemove_keys_nodup _ _ (pyDict_keys_nodup _)))

theorem cleanArgs_props (q : List Char) (hq : ∀ c ∈ q, okQueryChar c) :
    ∀ p ∈ cleanArgs q,
      (∀ c ∈ p.1, c = ' ' ∨ c ∈ q) ∧ (∀ c ∈ p.2, c = ' ' ∨ c ∈ q) ∧
      '&' ∉ p.1 ∧ '&' ∉ p.2 ∧ '=' ∉ p.1 ∧ '%' ∉ p.1 ∧ '%' ∉ p.2 ∧
      '+' ∉ p.1 ∧ '+' ∉ p.2 ∧ p.2 ≠ [] := by
  intro p hp2
  have h1 := parse_qsl_mem q (fun hm => (hq '%' hm).2.2.1 rfl) p (cleanArgs_sub q p hp2)
  refine ⟨h1.1, h1.2.1, h1.2.2.2.2.2.1, h1.2.2.2.2.2.2.1, h1.2.2.2.2.1, ?_, ?_,
    h1.2.2.1, h1.2.2.2.1, h1.2.2.2.2.2.2.2⟩
  · intro hm
    rcases h1.1 '%' hm with he | hin
    · exact absurd he (by decide)
    · exact (hq '%' hin).2.2.1 rfl
  · intro hm
    rcases h1.2.1 '%' hm with he | hin
    · exact absurd he (by decide)
    · exact (hq '%' hin).2.2.1 rfl

theorem cleanArgs_fixed (q : List Char) (hq : ∀ c ∈ q, okQueryChar c) :
    cleanArgs (encodedPlus (cleanArgs q)) = cleanArgs q := by
  have hok : ∀ p ∈ cleanArgs q, '&' ∉ p.1 ∧ '&' ∉ p.2 ∧ '=' ∉ p.1 ∧ '%' ∉ p.1 ∧
      '%' ∉ p.2 ∧ '+' ∉ p.1 ∧ '+' ∉ p.2 ∧ p.2 ≠ [] := by
    intro p hp2
    have h1 := cleanArgs_props q hq p hp2
    exact ⟨h1.2.2.1, h1.2.2.2.1, h1.2.2.2.2.1, h1.2.2.2.2.2.1, h1.2.2.2.2.2.2.1,
      h1.2.2.2.2.2.2.2.1, h1.2.2.2.2.2.2.2.2.1, h1.2.2.2.2.2.2.2.2.2⟩
  have hparse2 : parse_qsl (encodedPlus (cleanArgs q)) = cleanArgs q :=
    parse_qsl_encodedPlus _ hok
  have hnkv := cleanArgs_not_keys q
  show dictRemove (dictRemove (dictRemove
      (pyDict (parse_qsl (encodedPlus (cleanArgs q))))
      "version".toList) "service".toList) "request".toList = cleanArgs q
  rw [hparse2, pyDict_eq_self _ (cleanArgs_nodup q),
    dictRemove_eq_self _ _ (fun p hp2 => (hnkv p hp2).1),
    dictRemove_eq_self _ _ (fun p hp2 => (hnkv p hp2).2.1),
    dictRemove_eq_self _ _ (fun p hp2 => (hnkv p hp2).2.2)]

theorem cleaned_url_core (url0 scheme netloc path qtail q : List Char)
    (hu : pyUnquote url0 = scheme ++ ':' :: '/' :: '/' :: netloc ++ path ++ qtail)
    (hs1 : scheme ≠ []) (hs2 : ∀ c ∈ scheme, c ∈ lowerAlpha)
    (hn1 : netloc ≠ []) (hn2 : ∀ c ∈ netloc, okNetlocChar c)
    (hp0 : ∃ p2, path = '/' :: p2) (hp : ∀ c ∈ path, okPathChar c)
    (hqt : qtail = [] ∧ q = [] ∨ qtail = '?' :: q)
    (hq : ∀ c ∈ q, okQueryChar c) :
    ∃ r, get_cleaned_url_params url0 = .ok r ∧
      r.url = scheme ++ ':' :: '/' :: '/' :: netloc ++ path ++
        (if pyUrlencode (cleanArgs q) = [] then []
         else '?' :: pyUrlencode (cleanArgs q)) := by
  have hqn : ∀ c ∈ qtail.tail, c ≠ '#' ∧ c ≠ '\t' ∧ c ≠ '\r' ∧ c ≠ '\n' := by
    rcases hqt with ⟨h1, _⟩ | h1
    · subst h1; intro c hc; simp at hc
    · subst h1
      intro c hc
      have h2 := hq c hc
      exact ⟨h2.2.1, h2.2.2.2.1, h2.2.2.2.2.1, h2.2.2.2.2.2⟩
  have hqs : qtail = [] ∨ ∃ q2, qtail = '?' :: q2 := by
    rcases hqt with ⟨h1, _⟩ | h1
    · exact Or.inl h1
    · exact Or.inr ⟨q, h1⟩
  have hparse := pyUrlparse_structured scheme netloc path qtail hs1 hs2 hn1 hn2
    hp0 hp hqn hqs
  have htail : qtail.tail = q := by
    rcases hqt with ⟨h1, h2⟩ | h1
    · subst h1; subst h2; rfl
    · subst h1; rfl
  rw [htail] at hparse
  simp only [get_cleaned_url_params, hu, hparse, except_bind_ok, except_pure_def]
  refine ⟨_, rfl, ?_⟩
  rw [pyUrlunparse_structured scheme netloc path _ hs1 hn1 hp0]
  rfl

/-- C9 (amended): `get_cleaned_url_params` is idempotent for percent-free
absolute URLs of the form `scheme://netloc/path` with an optional `?query`
part: non-empty lower-case alphabetic scheme, non-empty ASCII network
location free of `/`, `?`, `#`, `%`, `[`, `]` and tab/CR/LF (so neither of
`urlsplit`'s netloc `ValueError` paths fires), absolute path free of `?`,
`#`, `%`, `;` and tab/CR/LF, and an ASCII query free of `%`, `#` and
tab/CR/LF.  On that domain both applications succeed and cleaning the
cleaned URL returns it unchanged.  On general URLs the operation is not
idempotent (see the counterexample): each application percent-decodes the
URL one more level than it re-encodes. -/
theorem cleaned_url_idempotent (scheme netloc path qtail : List Char)
    (hs1 : scheme ≠ []) (hs2 : ∀ c ∈ scheme, c ∈ lowerAlpha)
    (hn1 : netloc ≠ []) (hn2 : ∀ c ∈ netloc, okNetlocChar c)
    (hp0 : ∃ p2, path = '/' :: p2) (hp : ∀ c ∈ path, okPathChar c)
    (hqs : qtail = [] ∨ ∃ q, qtail = '?' :: q)
    (hq : ∀ c ∈ qtail.tail, okQueryChar c) :
    ∃ r1 r2,
      get_cleaned_url_params
          (scheme ++ ':' :: '/' :: '/' :: netloc ++ path ++ qtail) = .ok r1 ∧
      get_cleaned_url_params r1.url = .ok r2 ∧ r2.url = r1.url := by
  have hx : ∃ q, (qtail = [] ∧ q = [] ∨ qtail = '?' :: q) ∧
      ∀ c ∈ q, okQueryChar c := by
    rcases hqs with h0 | ⟨q, h0⟩
    · exact ⟨[], Or.inl ⟨h0, rfl⟩, by intro c hc; simp at hc⟩
    · subst h0
      exact ⟨q, Or.inr rfl, hq⟩
  obtain ⟨q, hqt, hqok⟩ := hx
  have hP : '%' ∉ scheme ++ ':' :: '/' :: '/' :: netloc ++ path := by
    intro hm
    rcases List.mem_append.1 hm with hm | hm
    · rcases List.mem_append.1 hm with hm | hm
      · exact (lowerAlpha_ne '%' (hs2 '%' hm)).2.1 rfl
      · rcases List.mem_cons.1 hm with he | hm
        · exact absurd he (by decide)
        · rcases List.mem_cons.1 hm with he | hm
          · exact absurd he (by decide)
          · rcases List.mem_cons.1 hm with he | hm
            · exact absurd he (by decide)
            · exact (hn2 '%' hm).2.2.2.1 rfl
    · exact (hp '%' hm).2.2.1 rfl
  have hu1 : pyUnquote (scheme ++ ':' :: '/' :: '/' :: netloc ++ path ++ qtail) =
      scheme ++ ':' :: '/' :: '/' :: netloc ++ path ++ qtail := by
    apply pyUnquote_no_percent
    intro hm
    rcases List.mem_append.1 hm with hm | hm
    · exact hP hm
    · rcases hqt with ⟨h1, _⟩ | h1
      · subst h1; simp at hm
      · subst h1
        rcases List.mem_cons.1 hm with he | hm
        · exact absurd he (by decide)
        · exact (hqok '%' hm).2.2.1 rfl
  obtain ⟨r1, hok1, hurl1⟩ := cleaned_url_core _ scheme netloc path qtail q hu1
    hs1 hs2 hn1 hn2 hp0 hp hqt hqok
  by_cases henc : pyUrlencode (cleanArgs q) = []
  · rw [if_pos henc, List.append_nil] at hurl1
    have hu2 : pyUnquote (scheme ++ ':' :: '/' :: '/' :: netloc ++ path) =
        scheme ++ ':' :: '/' :: '/' :: netloc ++ path ++ ([] : List Char) := by
      rw [List.append_nil]
      exact pyUnquote_no_percent _ hP
    obtain ⟨r2, hok2, hurl2⟩ := cleaned_url_core _ scheme netloc path [] [] hu2
      hs1 hs2 hn1 hn2 hp0 hp (Or.inl ⟨rfl, rfl⟩) (by intro c hc; simp at hc)
    rw [if_pos (show pyUrlencode (cleanArgs []) = [] from rfl),
      List.append_nil] at hurl2
    exact ⟨r1, r2, hok1, by rw [hurl1]; exact hok2, by rw [hurl2, hurl1]⟩
  · rw [if_neg henc] at hurl1
    have hchars := cleanArgs_props q hqok
    have hascii : ∀ p ∈ cleanArgs q,
        (∀ c ∈ p.1, c.toNat < 128) ∧ (∀ c ∈ p.2, c.toNat < 128) := by
      intro p hp2
      have h1 := hchars p hp2
      constructor
      · intro c hc
        rcases h1.1 c hc with he | hin
        · subst he; decide
        · exact (hqok c hin).1
      · intro c hc
        rcases h1.2.1 c hc with he | hin
        · subst he; decide
        · exact (hqok c hin).1
    have hdec : pyUnquote (pyUrlencode (cleanArgs q)) = encodedPlus (cleanArgs q) :=
      pyUnquote_urlencode _ hascii
    have hpq : '%' ∉ scheme ++ ':' :: '/' :: '/' :: netloc ++ path ++ ['?'] := by
      intro hm
      rcases List.mem_append.1 hm with hm | hm
      · exact hP hm
      · simp only [List.mem_singleton] at hm
        exact absurd hm (by decide)
    have hu2 : pyUnquote (scheme ++ ':' :: '/' :: '/' :: netloc ++ path ++
        '?' :: pyUrlencode (cleanArgs q)) =
        scheme ++ ':' :: '/' :: '/' :: netloc ++ path ++
          '?' :: encodedPlus (cleanArgs q) := by
      have h1 : scheme ++ ':' :: '/' :: '/' :: netloc ++ path ++
          '?' :: pyUrlencode (cleanArgs q) =
          (scheme ++ ':' :: '/' :: '/' :: netloc ++ path ++ ['?']) ++
            pyUrlencode (cleanArgs q) := by simp
      rw [h1, pyUnquote_append_no_percent _ _ hpq, hdec]
      simp
    have hq2 : ∀ c ∈ encodedPlus (cleanArgs q), okQueryChar c := by
      intro c hc
      rcases encodedPlus_mem _ c hc with he | he | ⟨p, hp2, hin⟩
      · subst he
        exact ⟨by decide, by decide, by decide, by decide, by decide, by decide⟩
      · subst he
        exact ⟨by decide, by decide, by decide, by decide, by decide, by decide⟩
      · have h1 := hchars p hp2
        rcases hin with hin | hin
        · rcases spaceToPlus_mem _ _ hin with he | hin2
          · subst he
            exact ⟨by decide, by decide, by decide, by decide, by decide, by decide⟩
          · rcases h1.1 c hin2 with he | hin3
            · subst he
              exact ⟨by decide, by decide, by decide, by decide, by decide, by decide⟩
            · exact hqok c hin3
        · rcases spaceToPlus_mem _ _ hin with he | hin2
          · subst he
            exact ⟨by decide, by decide, by decide, by decide, by decide, by decide⟩
          · rcases h1.2.1 c hin2 with he | hin3
            · subst he
              exact ⟨by decide, by decide, by decide, by decide, by decide, by decide⟩
            · exact hqok c hin3
    obtain ⟨r2, hok2, hurl2⟩ := cleaned_url_core _ scheme netloc path
      ('?' :: encodedPlus (cleanArgs q)) (encodedPlus (cleanArgs q)) hu2 hs1 hs2
      hn1 hn2 hp0 hp (Or.inr rfl) hq2
    rw [cleanArgs_fixed q hqok, if_neg henc] at hurl2
    exact ⟨r1, r2, hok1, by rw [hurl1]; exact hok2, by rw [hurl2, hurl1]⟩

/-- C9, counterexample to the claim as stated: URL cleaning is not
idempotent.  For `http://h/p?a=%252541` the first application succeeds and
produces `http://h/p?a=%2541`, and applying it again to that output
succeeds and produces `http://h/p?a=A`, a different URL:
`get_cleaned_url_params` percent-decodes twice per pass (`unquote` on the
whole URL, then `parse_qsl` on the query) but re-encodes only once, so each
pass strips one level of percent-encoding from a multiply-encoded query
value. -/
theorem cleaned_url_not_idempotent :
    get_cleaned_url_params "http://h/p?a=%252541".toList =
      .ok ⟨"http://h/p?a=%2541".toList, none, "2.0.1".toList, none⟩ ∧
    get_cleaned_url_params "http://h/p?a=%2541".toList =
      .ok ⟨"http://h/p?a=A".toList, none, "2.0.1".toList, none⟩ ∧
    "http://h/p?a=A".toList ≠ "http://h/p?a=%2541".toList := by decide

/-- Witness for the C9 theorem: the amended idempotence at the concrete URL
`http://h/p?a=1&b=c d`, whose hypotheses all hold. -/
theorem cleaned_url_idempotent_witness :
    ("http".toList ≠ [] ∧ (∀ c ∈ "http".toList, c ∈ lowerAlpha) ∧
      "h".toList ≠ [] ∧ (∀ c ∈ "h".toList, okNetlocChar c) ∧
      "/p".toList = '/' :: "p".toList ∧ (∀ c ∈ "/p".toList, okPathChar c) ∧
      "?a=1&b=c d".toList = '?' :: "a=1&b=c d".toList ∧
      (∀ c ∈ "?a=1&b=c d".toList.tail, okQueryChar c)) ∧
    (∃ r1 r2,
      get_cleaned_url_params
          ("http".toList ++ ':' :: '/' :: '/' :: "h".toList ++ "/p".toList ++
            "?a=1&b=c d".toList) = .ok r1 ∧
      get_cleaned_url_params r1.url = .ok r2 ∧ r2.url = r1.url) :=
  ⟨⟨by decide, by decide, by decide, by decide, by decide, by decide, by decide,
      by decide⟩,
    cleaned_url_idempotent "http".toList "h".toList "/p".toList
      "?a=1&b=c d".toList (by decide) (by decide) (by decide) (by decide)
      ⟨"p".toList, by decide⟩ (by decide)
      (Or.inr ⟨"a=1&b=c d".toList, by decide⟩) (by decide)⟩
